import Mathlib

/-!
# Shallow embedding of the salt gitfs fileserver backend

This file embeds the core of `salt/fileserver/gitfs.py` (the git-backed
fileserver): the ref/environment resolver (`_dulwich_env_refs`,
`_envs_dulwich`, `_envs_gitpython`, `envs`), the tree resolver
(`_get_tree_dulwich`, `_dulwich_walk_tree`), the content cache
(`find_file`), the cache purge (`purge_cache`) and the update loop's
change/event bookkeeping (`update`).

Conventions of the embedding:

* Python strings are modelled as `List Char` (`Str`), so that the source's
  string surgery (`startswith`, `lstrip`, slicing, `split`, `rpartition`,
  `replace`) maps onto structural list operations.
* `os.path.sep` is `'/'` (the backend runs on the posix master).
* Exceptions that the source catches and converts to "skip this
  candidate" are modelled with `Option`; exceptions the source does NOT
  catch (a `KeyError`/`NameError`/`AttributeError` escaping
  `_get_tree_dulwich` on a dangling ref or missing object, raised
  through `find_file`) are modelled with `Raised.exc` and propagate.
* The external collaborators (`salt.utils.check_whitelist_blacklist`,
  `salt.fileserver.wait_lock`, the event bus) are not part of `src/`;
  they enter the model as parameters or as definitions marked
  `Modelled from the spec:`.
* The on-disk state touched by `find_file` is an explicit `FS` value
  (a directory set and a file map) threaded through the function.
-/

/-- Python strings, modelled as lists of characters. -/
abbrev Str := List Char

/-- Coerce a Lean string literal to the `Str` representation. -/
def str (s : String) : Str := s.data

/-- Python `s.startswith(p)`. -/
def pyStartsWith (s p : Str) : Bool := p.isPrefixOf s

/-- Python `s.endswith(p)` (checked on the reversed strings). -/
def pyEndsWith (s p : Str) : Bool := p.reverse.isPrefixOf s.reverse

/-- Python `s.replace(a, b)` for single-character `a`, `b`. -/
def pyReplace (s : Str) (a b : Char) : Str :=
  s.map (fun c => if c = a then b else c)

/-- Python `s.lstrip(c)`: drop every leading occurrence of `c`. -/
def pyLstrip (s : Str) (c : Char) : Str := s.dropWhile (· = c)

/-- Python `s.rstrip(c)`: drop every trailing occurrence of `c`. -/
def pyRstrip (s : Str) (c : Char) : Str := (s.reverse.dropWhile (· = c)).reverse

/-- Python `s.split(c, 1)`: split at the first occurrence of `c`;
`none` when `c` does not occur (the callers unpack two pieces, so in
Python that case raises `ValueError`). -/
def splitOnce (c : Char) : Str → Option (Str × Str)
  | [] => none
  | x :: rest =>
    if x = c then some ([], rest)
    else
      match splitOnce c rest with
      | some (a, b) => some (x :: a, b)
      | none => none

/-- Python `s.split(c)` (no limit). -/
def pySplitAll (c : Char) : Str → List Str
  | [] => [[]]
  | x :: rest =>
    if x = c then [] :: pySplitAll c rest
    else
      match pySplitAll c rest with
      | h :: t => (x :: h) :: t
      | [] => [[x]]

/-- Python `s.rpartition(c)` restricted to the two pieces the source
uses: `(head, tail)` around the last occurrence of `c`; when `c` does
not occur the result is `([], s)` (Python returns `('', '', s)`). -/
def rpartition (c : Char) (s : Str) : Str × Str :=
  match splitOnce c s.reverse with
  | some (a, b) => (b.reverse, a.reverse)
  | none => ([], s)

/-- `os.path.isabs` on posix: the path starts with the separator. -/
def isabs (p : Str) : Bool := pyStartsWith p (str "/")

/-- Two-argument `os.path.join` on posix: an absolute second component
replaces the first, otherwise a separator is inserted unless one is
already present. -/
def osJoin (a b : Str) : Str :=
  if pyStartsWith b (str "/") then b
  else if a = [] then b
  else if pyEndsWith a (str "/") then a ++ b
  else a ++ str "/" ++ b

/-- `os.path.dirname` on posix: everything up to the last separator,
with trailing separators stripped unless the result is all separators. -/
def dirname (p : Str) : Str :=
  match splitOnce '/' p.reverse with
  | none => []
  | some (_, restRev) =>
    let head := (('/' :: restRev)).reverse
    if head.any (· ≠ '/') then pyRstrip head '/' else head

/-- Lookup in an association list by key (first match wins); models
indexing into a Python `dict` whose insertion order is the list order. -/
def alookup {α : Type} (k : Str) : List (Str × α) → Option α
  | [] => none
  | (k', v) :: rest => if k' = k then some v else alookup k rest

/-- Ordering used by Python's `sorted` on strings: lexicographic by
character code. -/
def strLe : Str → Str → Bool
  | [], _ => true
  | _ :: _, [] => false
  | a :: as, b :: bs => if a < b then true else if a = b then strLe as bs else false

/-- `strLe` as a proposition, for the sorting lemmas. -/
def strLeP (a b : Str) : Prop := strLe a b = true

instance : DecidableRel strLeP := fun a b => inferInstanceAs (Decidable (strLe a b = true))

/-- Python `sorted` on a list of strings. -/
def sortStrs (l : List Str) : List Str := List.insertionSort strLeP l

/-! ## The git object model (dulwich provider)

A dulwich repository is its ref table (`repo.get_refs()`, a dict from
ref name to object id) together with its object store (`repo.get_object`
/ `repo.object_store`, a map from hex id to object).  Only the object
features the source consumes are modelled: a commit's tree id, an
annotated tag's target id (`tag.object[1]`), a tree's name → id entries
(the mode in dulwich's `(mode, sha)` pairs is never read by the source),
and a blob's raw data (`blob.as_raw_string()`). -/

inductive DObj where
  | commit (tree : Str)
  | tagObj (target : Str)
  | tree (entries : List (Str × Str))
  | blob (data : Str)
deriving DecidableEq

structure DRepo where
  refs : List (Str × Str)
  store : List (Str × DObj)
deriving DecidableEq

/-- The ref names of `repo.get_refs()`, in table order. -/
def getRefs (r : DRepo) : List Str := r.refs.map (·.1)

/-- `repo.get_object(sha)`; `none` models the `KeyError` for a missing
object. The store is assumed consistent (`sha(obj) = key`), so the key
doubles as the object's hex id. -/
def get_object (r : DRepo) (sha : Str) : Option DObj := alookup sha r.store

/-- `blob.as_raw_string()`.  Only `Blob` objects are expected here; the
serialization of other object kinds is not needed by any claim and is
modelled as empty. -/
def blobRaw : DObj → Str
  | .blob d => d
  | _ => []

/-- `_dulwich_env_refs` (gitfs.py:319-321): keep refs matching
`re.match('refs/(heads|tags)', x)` that do not end in `^{}`. -/
def _dulwich_env_refs (refs : List Str) : List Str :=
  refs.filter (fun x =>
    (pyStartsWith x (str "refs/heads") || pyStartsWith x (str "refs/tags")) &&
    !pyEndsWith x (str "^\x7b\x7d"))

/-- `_envs_dulwich` (gitfs.py:907-924).  `exposed` stands for the
external `_env_is_exposed` / `check_whitelist_blacklist` predicate.
A ref whose remainder after `refs/` contains no `/` would make the
two-way unpacking of `split('/', 1)` raise `ValueError` in Python; it is
modelled as skipped (the theorems only involve well-formed refs). -/
def _envs_dulwich (exposed : Str → Bool) (base_branch : Str) (repo : DRepo) : List Str :=
  (_dulwich_env_refs (getRefs repo)).foldr (fun ref acc =>
    match splitOnce '/' (ref.drop 5) with
    | none => acc
    | some (rtype, rspec0) =>
      let rspec := pyReplace rspec0 '/' '_'
      if rtype = str "heads" then
        let rspec := if rspec = base_branch then str "base" else rspec
        if exposed rspec then rspec :: acc else acc
      else if rtype = str "tags" then
        if exposed rspec then rspec :: acc else acc
      else acc) []

/-- `envs` for the dulwich provider (gitfs.py:831-858): the union over
the repos returned by `init()`, deduplicated (the source accumulates
into a `set`) and sorted.  The env-cache fast path (`check_env_cache`)
is owned by the external fileserver helper and is bypassed here, as with
`ignore_cache=True`. -/
def envs_dulwich (exposed : Str → Bool) (base_branch : Str) (repos : List DRepo) : List Str :=
  sortStrs ((repos.foldr (fun r acc => _envs_dulwich exposed base_branch r ++ acc) []).dedup)

/-! ## The GitPython ref model

For `_envs_gitpython` the relevant structure of a GitPython repo is the
list of its refs, each carrying a name and a class (`git.Head`, which
also covers `git.RemoteReference`; `git.Tag`; or anything else), plus
the `stale_refs` attribute of its first remote. -/

inductive GRefKind where
  | head
  | tagref
  | other
deriving DecidableEq

structure GRef where
  name : Str
  kind : GRefKind
deriving DecidableEq

structure GRepo where
  refs : List GRef
  stale : List GRef
deriving DecidableEq

/-- The `rspec` computation shared by the gitpython branches
(gitfs.py:869-871): `parted = ref.name.partition('/')`,
`rspec = parted[2] if parted[2] else parted[0]`, slashes to
underscores. -/
def gitRefSpec (name : Str) : Str :=
  match splitOnce '/' name with
  | some (a, b) => pyReplace (if b ≠ [] then b else a) '/' '_'
  | none => pyReplace name '/' '_'

/-- `_envs_gitpython` (gitfs.py:861-879). -/
def _envs_gitpython (exposed : Str → Bool) (base_branch : Str) (repo : GRepo) : List Str :=
  repo.refs.foldr (fun ref acc =>
    let rspec := gitRefSpec ref.name
    match ref.kind with
    | .head =>
      let rspec := if rspec = base_branch then str "base" else rspec
      if !repo.stale.contains ref && exposed rspec then rspec :: acc else acc
    | .tagref => if exposed rspec then rspec :: acc else acc
    | .other => acc) []

/-- `envs` for the gitpython provider (gitfs.py:831-858). -/
def envs_gitpython (exposed : Str → Bool) (base_branch : Str) (repos : List GRepo) : List Str :=
  sortStrs ((repos.foldr (fun r acc => _envs_gitpython exposed base_branch r ++ acc) []).dedup)

/-! ## The tree resolver (dulwich provider) -/

/-- Outcome of code that can raise an exception the source does not
catch: `ok v` is a normal result; `exc` is an uncaught exception
(`KeyError`/`NameError`/`AttributeError`) propagating to the caller —
out of `_get_tree_dulwich` and out of `find_file`, whose call at
gitfs.py:1000 sits outside the `try` at line 1005. -/
inductive Raised (α : Type) where
  | ok (val : α)
  | exc
deriving DecidableEq

/-- `_dulwich_walk_tree` (gitfs.py:298-316): descend from `tree` along
the `/`-separated segments of `path`; an empty path returns the input
unchanged; a missing entry (`KeyError`) or a non-tree intermediate
(`TypeError`) yields `none`. -/
def walkStep (repo : DRepo) (t : Option DObj) (seg : Str) : Option DObj :=
  match t with
  | some (.tree entries) =>
    match alookup seg entries with
    | some sha => get_object repo sha
    | none => none
  | _ => none

def _dulwich_walk_tree (repo : DRepo) (tree : Option DObj) (path : Str) : Option DObj :=
  if path = [] then tree
  else (pySplitAll '/' path).foldl (walkStep repo) tree

/-- The loop condition at gitfs.py:388: the ref's sanitized spec equals
`short` and passes the exposure check. -/
def refMatches (exposed : Str → Bool) (short ref : Str) : Bool :=
  match splitOnce '/' (ref.drop 5) with
  | none => false
  | some (_, rspec0) =>
    let rspec := pyReplace rspec0 '/' '_'
    decide (rspec = short) && exposed rspec

/-- The body executed for a matching ref (gitfs.py:389-405): resolve
the ref to a commit (dereferencing annotated tags through
`tag.object[1]`) and return the commit's tree.  No enclosing handler
exists, so every failure raises out of `_get_tree_dulwich` and out of
`find_file`: a missing object behind `refs[ref]` or behind the tag
target (`KeyError`, lines 390/392/396), a ref category that never
binds `commit` (`NameError` at line 405), a dereferenced object with
no `tree` attribute (`AttributeError` at line 405), and a missing tree
object (`KeyError` at line 405).  All of these are `.exc`. -/
def refPayload (repo : DRepo) (ref : Str) : Raised DObj :=
  match splitOnce '/' (ref.drop 5) with
  | none => .exc
  | some (rtype, _) =>
    match alookup ref repo.refs with
    | none => .exc
    | some sha =>
      let commit : Raised DObj :=
        if rtype = str "heads" then
          match get_object repo sha with
          | some obj => .ok obj
          | none => .exc
        else if rtype = str "tags" then
          match get_object repo sha with
          | some (.tagObj target) =>
            (match get_object repo target with
             | some obj => .ok obj
             | none => .exc)
          | some (.commit t) => .ok (.commit t)
          | some _ => .exc
          | none => .exc
        else .exc
      match commit with
      | .ok (.commit t) =>
        (match get_object repo t with
         | some tr => .ok tr
         | none => .exc)
      | .ok _ => .exc
      | .exc => .exc

/-- The `for ref in sorted(_dulwich_env_refs(refs))` loop of
`_get_tree_dulwich` (gitfs.py:384-405).  `some res` means the loop
returned (or raised) `res`; `none` means it fell through to the SHA
logic.  A ref without a `/` after the category would raise
`ValueError` at the unpacking (line 386) before the match test; such
malformed refs are modelled as skipped, and every theorem below
involves well-formed refs only. -/
def refScanLoop (repo : DRepo) (exposed : Str → Bool) (short : Str) :
    List Str → Option (Raised DObj)
  | [] => none
  | ref :: rest =>
    if refMatches exposed short ref then some (refPayload repo ref)
    else refScanLoop repo exposed short rest

def isHexDigit (c : Char) : Bool :=
  c.isDigit || (('a' ≤ c && c ≤ 'f') || ('A' ≤ c && c ≤ 'F'))

/-- `int(short, 16)` succeeds (gitfs.py:413): modelled for plain
hexadecimal digit strings; the sign/whitespace/`0x`-prefix forms Python
also accepts cannot arise from the environment names of the claims. -/
def pyIsHex (s : Str) : Bool := !s.isEmpty && s.all isHexDigit

/-- The commit objects in the store whose hex id starts with `short`
(gitfs.py:424-430). -/
def shaMatches (repo : DRepo) (short : Str) : List (Str × DObj) :=
  repo.store.filter (fun p =>
    pyStartsWith p.1 short &&
    (match p.2 with | .commit _ => true | _ => false))

/-- `_get_tree_dulwich` (gitfs.py:376-449).  The second component
records whether the ambiguous-commit warning (gitfs.py:432) was
logged.  The global `envs()` call at line 381 is a parameter `envsL`;
`exposed` stands for `_env_is_exposed`.  First component: `.ok (some
tree)` is a resolved tree, `.ok none` the absent result (`return
None`), and `.exc` an exception the function does not catch — a
failure inside the matched-ref body (see `refPayload`) or a `KeyError`
from the final `repo.get_object(sha_commit.tree)` at line 445 when the
commit's tree object is missing.  The `except KeyError` at line 440
and the `except NameError` at line 446 are the caught paths and yield
`.ok none`. -/
def _get_tree_dulwich (envsL : List Str) (exposed : Str → Bool) (repo : DRepo) (short : Str) :
    Raised (Option DObj) × Bool :=
  match (if envsL.contains short then
           refScanLoop repo exposed short (sortStrs (_dulwich_env_refs (getRefs repo)))
         else none) with
  | some (.ok tr) => (.ok (some tr), false)
  | some .exc => (.exc, false)
  | none =>
    if !exposed short then (.ok none, false)
    else if !pyIsHex short then (.ok none, false)
    else if short.length = 40 then
      match get_object repo short with
      | some (.commit t) =>
        (match get_object repo t with
         | some tr => (.ok (some tr), false)
         | none => (.exc, false))
      | some _ => (.ok none, false)
      | none => (.ok none, false)
    else
      let ms := shaMatches repo short
      if ms.length > 1 then (.ok none, true)
      else
        match ms with
        | [(_, DObj.commit t)] =>
          (match get_object repo t with
           | some tr => (.ok (some tr), false)
           | none => (.exc, false))
        | _ => (.ok none, false)

/-! ## The on-disk state of the content cache

`find_file` touches the master's cache directory: it creates the
destination and hash directories, reads and writes the materialized
blob, the `.hash.blob_sha1` sidecar and the `.lk` lock file, and deletes
`.hash.*` sidecars matched by a glob.  The state is a set of directory
names and a map from file name to content. -/

structure FS where
  dirs : List Str
  files : List (Str × Str)
deriving DecidableEq

def isdir (fs : FS) (p : Str) : Bool := fs.dirs.contains p

/-- `os.makedirs` (only the requested directory is tracked; the claims
do not depend on the implicitly created parents). -/
def mkdir (fs : FS) (p : Str) : FS := { fs with dirs := p :: fs.dirs }

def eraseKey (p : Str) (l : List (Str × Str)) : List (Str × Str) :=
  l.filter (fun q => decide (q.1 ≠ p))

def isfile (fs : FS) (p : Str) : Bool := (alookup p fs.files).isSome

def readFile (fs : FS) (p : Str) : Str := (alookup p fs.files).getD []

def writeFile (fs : FS) (p c : Str) : FS :=
  { fs with files := (p, c) :: eraseKey p fs.files }

def removeFile (fs : FS) (p : Str) : FS := { fs with files := eraseKey p fs.files }

/-- A file name matches the pattern `pfx*` produced by `glob.glob`
(gitfs.py:944-947, 1023): it extends `pfx` and the remainder contains
no path separator (`*` does not cross directories). -/
def globMatches (pfx f : Str) : Bool :=
  pyStartsWith f pfx && !((f.drop pfx.length).contains '/')

/-- Remove every file matching the hashes glob (gitfs.py:1023-1027). -/
def removeGlob (fs : FS) (pfx : Str) : FS :=
  { fs with files := fs.files.filter (fun q => !globMatches pfx q.1) }

/-! ## `find_file` (gitfs.py:927-1044), dulwich provider -/

/-- Per-remote configuration record as produced by `init()`: the repo
handle plus the per-remote `mountpoint` and `root` overrides
(`strip_proto` was already applied to a configured mountpoint during
`init`). -/
structure RepoConf where
  repo : DRepo
  root : Option Str
  mountpoint : Option Str

/-- The process-wide configuration consumed by the backend.
`gitfs_mountpoint` is the value after the external
`salt.utils.strip_proto` call; `exposed` is the external
`check_whitelist_blacklist` applied to the configured
whitelist/blacklist. -/
structure GitfsConfig where
  cachedir : Str
  gitfs_base : Str
  gitfs_root : Str
  gitfs_mountpoint : Str
  exposed : Str → Bool

/-- gitfs.py:941-942: the `base` alias is replaced by the configured
base branch. -/
def effectiveEnv (cfg : GitfsConfig) (tgt_env : Str) : Str :=
  if tgt_env = str "base" then cfg.gitfs_base else tgt_env

/-- The values `find_file` computes before its repo loop
(gitfs.py:937-961): the target env, destination path, hash-sidecar
paths, lock path and glob pattern, plus everything the per-repo
resolution needs. -/
structure LoopParams where
  envsL : List Str
  exposed : Str → Bool
  gitfs_root : Str
  gitfs_mountpoint : Str
  tgt : Str
  path : Str
  dest : Str
  hashesPfx : Str
  blobshadest : Str
  lk : Str

def findFileParams (cfg : GitfsConfig) (repos : List RepoConf) (path tgt_env : Str) :
    LoopParams :=
  let tgt := effectiveEnv cfg tgt_env
  let hashBase := osJoin (osJoin cfg.cachedir (str "gitfs/hash")) tgt
  { envsL := envs_dulwich cfg.exposed cfg.gitfs_base (repos.map RepoConf.repo)
    exposed := cfg.exposed
    gitfs_root := cfg.gitfs_root
    gitfs_mountpoint := cfg.gitfs_mountpoint
    tgt := tgt
    path := path
    dest := osJoin (osJoin (osJoin cfg.cachedir (str "gitfs/refs")) tgt) path
    hashesPfx := osJoin hashBase (path ++ str ".hash.")
    blobshadest := osJoin hashBase (path ++ str ".hash.blob_sha1")
    lk := osJoin hashBase (path ++ str ".lk") }

/-- The tree/blob lookup once the repo-relative path is known
(gitfs.py:998-1011): split off the final segment, resolve the env's
tree, walk down the directory part, index the final segment and fetch
the blob.  The `_get_tree_dulwich` call at line 1000 sits outside the
`try` at line 1005, so an exception it raises propagates (`.exc`); the
`except KeyError` at line 1009 covers only the final index and blob
fetch, which therefore stay `Option`.  The `.ok` result is the blob's
hex id (`blob.sha().hexdigest()`, which equals its store key) and its
raw data. -/
def repoLookup (envsL : List Str) (exposed : Str → Bool) (tgt : Str) (repo : DRepo)
    (repo_path : Str) : Raised (Option (Str × Str)) :=
  let pr := rpartition '/' repo_path
  match (_get_tree_dulwich envsL exposed repo tgt).1 with
  | .exc => .exc
  | .ok t =>
    match _dulwich_walk_tree repo t pr.1 with
    | some (.tree entries) =>
      .ok ((alookup pr.2 entries).bind (fun sha =>
        (get_object repo sha).map (fun obj => (sha, blobRaw obj))))
    | _ => .ok none

/-- The pure part of one iteration of the repo loop
(gitfs.py:963-1011): merge per-remote and global `root`/`mountpoint`,
skip when the path is outside the mountpoint, strip the mountpoint,
prepend the root and look the blob up.  The mountpoint skip (`continue`
at gitfs.py:971) happens before the tree resolution, so a repo whose
mountpoint does not cover the path never raises. -/
def resolveBlob (pr : LoopParams) (rc : RepoConf) : Raised (Option (Str × Str)) :=
  let root := rc.root.getD pr.gitfs_root
  let mountpoint := rc.mountpoint.getD pr.gitfs_mountpoint
  if mountpoint ≠ [] && !pyStartsWith pr.path (mountpoint ++ str "/") then .ok none
  else
    let repo_path := pyLstrip (pr.path.drop mountpoint.length) '/'
    let repo_path := if root ≠ [] then osJoin root repo_path else repo_path
    repoLookup pr.envsL pr.exposed pr.tgt rc.repo repo_path

structure Fnd where
  rel : Str
  path : Str
deriving DecidableEq

def emptyFnd : Fnd := { rel := [], path := [] }

/-- The slow path of the content cache (gitfs.py:1021-1043): write an
empty lock file, delete the stale `.hash.*` sidecars, stream the blob
to the destination, record the blob id in the sidecar and remove the
lock. -/
def slowPath (pr : LoopParams) (fs : FS) (sha data : Str) : Raised Fnd × FS :=
  let fs1 := writeFile fs pr.lk []
  let fs2 := removeGlob fs1 pr.hashesPfx
  let fs3 := writeFile fs2 pr.dest data
  let fs4 := writeFile fs3 pr.blobshadest sha
  let fs5 := removeFile fs4 pr.lk
  (.ok { rel := pr.path, path := pr.dest }, fs5)

/-- The repo loop of `find_file` (gitfs.py:963-1044).  The external
`salt.fileserver.wait_lock` call (line 1013) blocks until the lock file
is absent and changes no state that this model tracks.  The fast path
(lines 1014-1020) returns when the sidecar exists, the destination
exists and the recorded id equals the blob's id.  An uncaught
exception during a repo's resolution aborts the whole call (`.exc`):
it occurs in the pure lookup, before any write of that iteration, so
the state is returned as it stood. -/
def findFileLoop (pr : LoopParams) (fs : FS) : List RepoConf → Raised Fnd × FS
  | [] => (.ok emptyFnd, fs)
  | rc :: rest =>
    match resolveBlob pr rc with
    | .exc => (.exc, fs)
    | .ok none => findFileLoop pr fs rest
    | .ok (some (sha, data)) =>
      if isfile fs pr.blobshadest && isfile fs pr.dest then
        if readFile fs pr.blobshadest = sha then
          (.ok { rel := pr.path, path := pr.dest }, fs)
        else slowPath pr fs sha data
      else slowPath pr fs sha data

/-- gitfs.py:958-961: create the destination and hash directories when
they do not exist yet. -/
def prepDirs (fs : FS) (destdir hashdir : Str) : FS :=
  let fs1 := if isdir fs destdir then fs else mkdir fs destdir
  if isdir fs1 hashdir then fs1 else mkdir fs1 hashdir

/-- `find_file` (gitfs.py:927-1044): absolute paths fail immediately;
otherwise the destination and hash directories are created when
missing and the repo loop runs.  `.exc` in the first component is an
exception the function lets escape to its caller (the tree-resolution
failures of `refPayload` and `_get_tree_dulwich`); the second
component is the filesystem state at that moment. -/
def find_file (cfg : GitfsConfig) (repos : List RepoConf) (fs : FS) (path tgt_env : Str) :
    Raised Fnd × FS :=
  if isabs path then (.ok emptyFnd, fs)
  else
    let pr := findFileParams cfg repos path tgt_env
    findFileLoop pr (prepDirs fs (dirname pr.dest) (dirname pr.blobshadest)) repos

/-! ## `purge_cache` (gitfs.py:693-710)

The function is abstracted over the listing of the gitfs base directory
(`os.listdir(bp_)`, directories and files alike) and the hashes of the
remotes currently returned by `init()`.  `list.remove` deletes the
first occurrence; the reserved names are kept. -/

def purgeReserved : List Str :=
  [str "hash", str "refs", str "envs.p", str "remote_map.txt"]

/-- The entries `purge_cache` passes to `shutil.rmtree`. -/
def purge_removals (entries hashes : List Str) : List Str :=
  (hashes.foldl (fun acc h => acc.erase h) entries).filter
    (fun rdir => !purgeReserved.contains rdir)

/-- The return value of `purge_cache`: whether anything was removed. -/
def purge_cache (entries hashes : List Str) : Bool :=
  !(purge_removals entries hashes).isEmpty

/-- The base-directory listing after the `shutil.rmtree` loop. -/
def purge_after (entries hashes : List Str) : List Str :=
  entries.filter (fun e => !(purge_removals entries hashes).contains e)

/-! ## `update` (gitfs.py:713-816): change detection and the event

The network fetch itself is external (`dulwich.client`); per repo the
model takes the fetch outcome.  `refs_pre != refs_post` compares two
dicts, i.e. the key → value maps regardless of order. -/

inductive FetchResult where
  | corrupted
  | emptyRepo
  | fetched (refs_post : List (Str × Str))
  | failed
deriving DecidableEq

/-- Equality of two ref tables as finite maps (Python `dict`
equality). -/
def assocEquiv (a b : List (Str × Str)) : Bool :=
  a.all (fun p => alookup p.1 b = some p.2) && b.all (fun p => alookup p.1 a = some p.2)

/-- Whether one repo's fetch sets `data['changed']`
(gitfs.py:747-780, dulwich provider): only a successful fetch of a
non-empty remote whose refs differ from the local ones. -/
def repoChanged (repo : DRepo) : FetchResult → Bool
  | .fetched post => !assocEquiv repo.refs post
  | _ => false

/-- The final value of `data['changed']`: seeded by `purge_cache()`
(gitfs.py:722) and accumulated over the repos. -/
def update_changed (purgeResult : Bool) (fetches : List (DRepo × FetchResult)) : Bool :=
  fetches.foldl (fun c rf => c || repoChanged rf.1 rf.2) purgeResult

structure EventData where
  changed : Bool
  backend : Str
deriving DecidableEq

/-- Modelled from the spec: `salt.utils.event.tagify(['gitfs',
'update'], prefix='fileserver')` is an external helper not under
`src/`; the spec states the resulting tag is
`fileserver/gitfs/update`. -/
def tagify_update : Str := str "fileserver/gitfs/update"

structure GitfsOptions where
  fileserver_events : Bool

/-- The events `update` fires (gitfs.py:805-808): whenever the
`fileserver_events` option is set, one event with the accumulated
payload is sent to the master event bus. -/
def update_events (opts : GitfsOptions) (purgeResult : Bool)
    (fetches : List (DRepo × FetchResult)) : List (Str × EventData) :=
  if opts.fileserver_events then
    [(tagify_update,
      { changed := update_changed purgeResult fetches, backend := str "gitfs" })]
  else []

/-! ## Concrete fixtures

Small concrete configurations and repositories used by the witnesses
and counterexamples below. -/

/-- An exposure predicate with empty whitelist and blacklist: every
environment is exposed. -/
def expAll : Str → Bool := fun _ => true

def cfgW : GitfsConfig :=
  { cachedir := str "/var/cache/salt"
    gitfs_base := str "master"
    gitfs_root := []
    gitfs_mountpoint := []
    exposed := expAll }

/-- A repo with a branch `x` and a tag `x` (a name collision), plus the
base branch `master`; the branch tip and the tag point at different
trees whose `foo.sls` blobs differ. -/
def repoW : DRepo :=
  { refs := [(str "refs/heads/x", str "01"),
             (str "refs/tags/x", str "02"),
             (str "refs/heads/master", str "03")]
    store := [(str "01", .commit (str "a1")),
              (str "a1", .tree [(str "foo.sls", str "b1")]),
              (str "b1", .blob (str "branch contents")),
              (str "02", .commit (str "a2")),
              (str "a2", .tree [(str "foo.sls", str "b2")]),
              (str "b2", .blob (str "tag contents")),
              (str "03", .commit (str "a1"))] }

def rcW : RepoConf := { repo := repoW, root := none, mountpoint := none }

def rcMnt : RepoConf := { repo := repoW, root := some [], mountpoint := some (str "srv/salt") }

/-- A repo whose object store has two commits sharing the hex prefix
`dead`. -/
def repoAmb : DRepo :=
  { refs := []
    store := [(str "dead01", .commit (str "a1")),
              (str "dead02", .commit (str "a1")),
              (str "a1", .tree [(str "foo.sls", str "b1")]),
              (str "b1", .blob (str "x"))] }

def rcAmb : RepoConf := { repo := repoAmb, root := none, mountpoint := none }

/-- A truncated repository: the ref `refs/heads/x` is present in the
refs table but the commit object `01` it names is missing from the
object store (a dangling ref).  `repo.get_object(refs[ref])` at
gitfs.py:390 raises `KeyError` on it. -/
def repoDangling : DRepo :=
  { refs := [(str "refs/heads/x", str "01")], store := [] }

def rcDangling : RepoConf := { repo := repoDangling, root := none, mountpoint := none }

/-- A repo with a branch and a tag both named `production`. -/
def repoC1 : DRepo :=
  { refs := [(str "refs/heads/production", str "01"),
             (str "refs/tags/production", str "02")]
    store := [] }

/-- A repo whose only ref is the branch `production`. -/
def repoC1w : DRepo :=
  { refs := [(str "refs/heads/production", str "01")]
    store := [] }

/-- A gitpython repo whose only ref is the remote branch
`origin/production`. -/
def grepoC1w : GRepo :=
  { refs := [{ name := str "origin/production", kind := .head }]
    stale := [] }

/-- A gitpython repo with one remote branch and one tag. -/
def grepoW : GRepo :=
  { refs := [{ name := str "origin/dev", kind := .head },
             { name := str "v1", kind := .tagref }]
    stale := [] }

def fs0 : FS := { dirs := [], files := [] }

/-! ## Order instances for the string ordering -/

instance : IsRefl Str strLeP where
  refl a := by
    induction a with
    | nil => rfl
    | cons x xs ih => show strLe _ _ = true; simp [strLe]; exact ih

instance : IsTotal Str strLeP where
  total a b := by
    induction a generalizing b with
    | nil => exact Or.inl rfl
    | cons x xs ih =>
      cases b with
      | nil => exact Or.inr rfl
      | cons y ys =>
        rcases lt_trichotomy x y with h | h | h
        · exact Or.inl (by show strLe _ _ = true; simp [strLe, h])
        · subst h
          rcases ih ys with h2 | h2
          · exact Or.inl (by
              show strLe _ _ = true
              simp [strLe, show strLe xs ys = true from h2])
          · exact Or.inr (by
              show strLe _ _ = true
              simp [strLe, show strLe ys xs = true from h2])
        · exact Or.inr (by show strLe _ _ = true; simp [strLe, h])

instance : IsTrans Str strLeP where
  trans a b c hab hbc := by
    have hcons : ∀ (u v : Char) (us vs : Str),
        strLe (u :: us) (v :: vs) = true ↔ u < v ∨ (u = v ∧ strLe us vs = true) := by
      intro u v us vs
      by_cases h1 : u < v
      · simp [strLe, h1]
      · by_cases h2 : u = v
        · simp [strLe, h1, h2]
        · simp [strLe, h1, h2]
    induction a generalizing b c with
    | nil => rfl
    | cons x xs ih =>
      cases b with
      | nil => exact absurd hab (by simp [strLeP, strLe])
      | cons y ys =>
        cases c with
        | nil => exact absurd hbc (by simp [strLeP, strLe])
        | cons z zs =>
          rw [show strLeP (x :: xs) (y :: ys) = (strLe (x :: xs) (y :: ys) = true) from rfl,
            hcons] at hab
          rw [show strLeP (y :: ys) (z :: zs) = (strLe (y :: ys) (z :: zs) = true) from rfl,
            hcons] at hbc
          show strLe _ _ = true
          rw [hcons]
          rcases hab with h1 | ⟨h1, h1'⟩
          · rcases hbc with h2 | ⟨h2, h2'⟩
            · exact Or.inl (lt_trans h1 h2)
            · exact Or.inl (h2 ▸ h1)
          · rcases hbc with h2 | ⟨h2, h2'⟩
            · exact Or.inl (h1 ▸ h2)
            · exact Or.inr ⟨h1.trans h2, ih ys zs h1' h2'⟩

/-- What one dulwich ref contributes to `_envs_dulwich`: the parsed
ref yields `e` through the heads branch (with base-branch renaming) or
through the tags branch, and `e` passes the exposure check. -/
def envContrib (exposed : Str → Bool) (base_branch : Str) (ref e : Str) : Prop :=
  ∃ rtype rspec0, splitOnce '/' (ref.drop 5) = some (rtype, rspec0) ∧
    ((rtype = str "heads" ∧
        e = (if pyReplace rspec0 '/' '_' = base_branch then str "base"
             else pyReplace rspec0 '/' '_') ∧ exposed e = true) ∨
     (rtype ≠ str "heads" ∧ rtype = str "tags" ∧
        e = pyReplace rspec0 '/' '_' ∧ exposed e = true))

/-- What one gitpython ref contributes to `_envs_gitpython`. -/
def envContribG (exposed : Str → Bool) (base_branch : Str) (repo : GRepo) (ref : GRef)
    (e : Str) : Prop :=
  (ref.kind = GRefKind.head ∧ repo.stale.contains ref = false ∧
     e = (if gitRefSpec ref.name = base_branch then str "base" else gitRefSpec ref.name) ∧
     exposed e = true) ∨
  (ref.kind = GRefKind.tagref ∧ e = gitRefSpec ref.name ∧ exposed e = true)

/-! # Theorems

## String-level helper lemmas -/

theorem strLe_cons_iff (x y : Char) (xs ys : Str) :
    strLe (x :: xs) (y :: ys) = true ↔ x < y ∨ (x = y ∧ strLe xs ys = true) := by
  by_cases h1 : x < y
  · simp [strLe, h1]
  · by_cases h2 : x = y
    · simp [strLe, h1, h2]
    · simp [strLe, h1, h2]

theorem strLe_antisymm : ∀ {a b : Str}, strLe a b = true → strLe b a = true → a = b
  | [], [], _, _ => rfl
  | [], _ :: _, _, hba => by simp [strLe] at hba
  | _ :: _, [], hab, _ => by simp [strLe] at hab
  | x :: xs, y :: ys, hab, hba => by
    rw [strLe_cons_iff] at hab hba
    rcases hab with h1 | ⟨h1, h1'⟩
    · rcases hba with h2 | ⟨h2, h2'⟩
      · exact absurd h2 (lt_asymm h1)
      · exact absurd (h2 ▸ h1) (lt_irrefl y)
    · rcases hba with h2 | ⟨h2, h2'⟩
      · exact absurd (h1 ▸ h2) (lt_irrefl y)
      · exact h1 ▸ congrArg (x :: ·) (strLe_antisymm h1' h2')

theorem pyStartsWith_iff : ∀ (p s : Str), pyStartsWith s p = true ↔ ∃ t, s = p ++ t := by
  intro p
  induction p with
  | nil => intro s; simp [pyStartsWith, List.isPrefixOf]
  | cons x xs ih =>
    intro s
    cases s with
    | nil => simp [pyStartsWith, List.isPrefixOf]
    | cons y ys =>
      simp only [pyStartsWith, List.isPrefixOf, Bool.and_eq_true, beq_iff_eq] at *
      constructor
      · rintro ⟨h1, h2⟩
        rcases (ih ys).mp h2 with ⟨t, ht⟩
        exact ⟨t, by simp [h1, ht]⟩
      · rintro ⟨t, ht⟩
        simp only [List.cons_append, List.cons.injEq] at ht
        exact ⟨ht.1.symm, (ih ys).mpr ⟨t, ht.2⟩⟩

theorem splitOnce_eq_some :
    ∀ {s a b : Str} {c : Char}, splitOnce c s = some (a, b) → s = a ++ c :: b := by
  intro s
  induction s with
  | nil => intro a b c h; simp [splitOnce] at h
  | cons x rest ih =>
    intro a b c h
    by_cases hx : x = c
    · simp only [splitOnce, if_pos hx, Option.some.injEq, Prod.mk.injEq] at h
      simp [← h.1, ← h.2, hx]
    · simp only [splitOnce, if_neg hx] at h
      cases hrec : splitOnce c rest with
      | none => rw [hrec] at h; simp at h
      | some p =>
        rw [hrec] at h
        cases p with
        | mk a' b' =>
          simp only [Option.some.injEq, Prod.mk.injEq] at h
          have := ih hrec
          simp [← h.1, ← h.2, this]

theorem splitOnce_append {c : Char} :
    ∀ {a : Str}, (∀ x ∈ a, x ≠ c) → ∀ (rest : Str),
      splitOnce c (a ++ rest) =
        (splitOnce c rest).map (fun p => (a ++ p.1, p.2)) := by
  intro a
  induction a with
  | nil =>
    intro _ rest
    cases h : splitOnce c rest with
    | none => simp [h]
    | some p => cases p; simp [h]
  | cons x xs ih =>
    intro ha rest
    have hx : ¬ x = c := ha x (by simp)
    have ih' := ih (fun y hy => ha y (by simp [hy])) rest
    simp only [List.cons_append, splitOnce, if_neg hx, ih']
    cases h : splitOnce c rest with
    | none => simp [ih', h]
    | some p => cases p; simp [ih', h]

theorem splitOnce_at_sep {c : Char} {a : Str} (ha : ∀ x ∈ a, x ≠ c) (b : Str) :
    splitOnce c (a ++ c :: b) = some (a, b) := by
  rw [splitOnce_append ha (c :: b)]
  simp [splitOnce]

/-! ## Path-arithmetic lemmas for `osJoin` -/

theorem isPrefixOf_single_append (c : Char) (l m : Str) (hl : l ≠ []) :
    List.isPrefixOf [c] (l ++ m) = List.isPrefixOf [c] l := by
  cases l with
  | nil => exact absurd rfl hl
  | cons x xs => simp [List.isPrefixOf]

theorem pyEndsWith_slash_append (x y : Str) (hy : y ≠ []) :
    pyEndsWith (x ++ y) (str "/") = pyEndsWith y (str "/") := by
  unfold pyEndsWith
  rw [List.reverse_append]
  exact isPrefixOf_single_append '/' y.reverse x.reverse (by simpa using hy)

theorem pyStartsWith_slash_append {p : Str} (q : Str)
    (hp : pyStartsWith p (str "/") = false) (hq : pyStartsWith q (str "/") = false) :
    pyStartsWith (p ++ q) (str "/") = false := by
  cases p with
  | nil => simpa using hq
  | cons c cs =>
    unfold pyStartsWith at hp ⊢
    rw [List.cons_append]
    simp only [List.isPrefixOf, Bool.and_eq_true] at hp ⊢
    simpa using hp

theorem osJoin_length {a b : Str} (hb : pyStartsWith b (str "/") = false) :
    (osJoin a b).length =
      (if a = [] then 0 else if pyEndsWith a (str "/") then a.length else a.length + 1)
        + b.length := by
  unfold osJoin
  simp only [hb, Bool.false_eq_true, if_false]
  by_cases h2 : a = []
  · simp [h2]
  · by_cases h3 : pyEndsWith a (str "/")
    · simp [h2, h3]
    · simp only [h2, h3, Bool.false_eq_true, if_false, if_neg h2]
      simp [str]
      omega

theorem osJoin_endsWith_slash (a b : Str) (hb : b ≠ []) :
    pyEndsWith (osJoin a b) (str "/") = pyEndsWith b (str "/") := by
  unfold osJoin
  by_cases h1 : pyStartsWith b (str "/")
  · simp [h1]
  · simp only [h1, Bool.false_eq_true, if_false]
    by_cases h2 : a = []
    · simp [h2]
    · by_cases h3 : pyEndsWith a (str "/")
      · simp only [h2, h3, if_true, if_neg h2]
        exact pyEndsWith_slash_append a b hb
      · simp only [h2, h3, Bool.false_eq_true, if_false, if_neg h2]
        rw [List.append_assoc]
        rw [pyEndsWith_slash_append a (str "/" ++ b) (by simp [str])]
        have : str "/" ++ b = '/' :: b := rfl
        rw [this]
        exact pyEndsWith_slash_append ['/'] b hb

theorem osJoin_ne_nil {a b : Str} (hb : pyStartsWith b (str "/") = false) (hbn : b ≠ []) :
    osJoin a b ≠ [] := by
  intro h
  have hlen := congrArg List.length h
  rw [osJoin_length hb] at hlen
  have hbl : 0 < b.length := List.length_pos.mpr hbn
  simp only [List.length_nil] at hlen
  split at hlen <;> omega

theorem osJoin_base_facts (cachedir : Str) :
    (osJoin cachedir (str "gitfs/refs")).length = (osJoin cachedir (str "gitfs/hash")).length ∧
    pyEndsWith (osJoin cachedir (str "gitfs/refs")) (str "/") = false ∧
    pyEndsWith (osJoin cachedir (str "gitfs/hash")) (str "/") = false ∧
    osJoin cachedir (str "gitfs/refs") ≠ [] ∧
    osJoin cachedir (str "gitfs/hash") ≠ [] := by
  have h1 : pyStartsWith (str "gitfs/refs") (str "/") = false := by decide
  have h2 : pyStartsWith (str "gitfs/hash") (str "/") = false := by decide
  refine ⟨?_, ?_, ?_, ?_, ?_⟩
  · rw [osJoin_length h1, osJoin_length h2]
    congr 1
  · rw [osJoin_endsWith_slash cachedir (str "gitfs/refs") (by decide)]; decide
  · rw [osJoin_endsWith_slash cachedir (str "gitfs/hash") (by decide)]; decide
  · exact osJoin_ne_nil h1 (by decide)
  · exact osJoin_ne_nil h2 (by decide)

theorem osJoin_nil_right {a : Str} (ha : a ≠ []) (he : pyEndsWith a (str "/") = false) :
    osJoin a [] = a ++ str "/" := by
  unfold osJoin
  simp only [show pyStartsWith [] (str "/") = false from rfl, Bool.false_eq_true, if_false,
    if_neg ha, he, List.append_nil]

/-- Under the (well-formedness) assumptions that the effective target
environment and the requested path are not absolute, the three cache
paths `find_file` computes are pairwise usable: the destination and the
blob-sha sidecar differ from the lock file, and the destination is a
nonempty name. -/
theorem findFileParams_sep (cfg : GitfsConfig) (repos : List RepoConf) (path tgt_env : Str)
    (he : pyStartsWith (effectiveEnv cfg tgt_env) (str "/") = false)
    (hp : pyStartsWith path (str "/") = false) :
    (findFileParams cfg repos path tgt_env).dest ≠ (findFileParams cfg repos path tgt_env).lk ∧
    (findFileParams cfg repos path tgt_env).blobshadest ≠
      (findFileParams cfg repos path tgt_env).lk ∧
    (findFileParams cfg repos path tgt_env).dest ≠ [] := by
  obtain ⟨lAB, eA, eB, nA, nB⟩ := osJoin_base_facts cfg.cachedir
  set e := effectiveEnv cfg tgt_env with hedef
  set A := osJoin cfg.cachedir (str "gitfs/refs") with hAdef
  set B := osJoin cfg.cachedir (str "gitfs/hash") with hBdef
  set D := osJoin A e with hDdef
  set H := osJoin B e with hHdef
  have lD : D.length = A.length + 1 + e.length := by
    rw [hDdef, osJoin_length he, if_neg nA, eA]
    simp
  have lH : H.length = B.length + 1 + e.length := by
    rw [hHdef, osJoin_length he, if_neg nB, eB]
    simp
  have lDH : D.length = H.length := by rw [lD, lH, lAB]
  have endsDH : pyEndsWith D (str "/") = pyEndsWith H (str "/") := by
    by_cases hce : e = []
    · rw [hDdef, hHdef, hce, osJoin_nil_right nA eA, osJoin_nil_right nB eB,
        pyEndsWith_slash_append A (str "/") (by decide),
        pyEndsWith_slash_append B (str "/") (by decide)]
    · rw [hDdef, hHdef, osJoin_endsWith_slash A e hce, osJoin_endsWith_slash B e hce]
  have nD : D ≠ [] := by
    intro h
    have := congrArg List.length h
    rw [lD] at this
    simp at this
  have nH : H ≠ [] := by
    intro h
    have := congrArg List.length h
    rw [lH] at this
    simp at this
  have hplk : pyStartsWith (path ++ str ".lk") (str "/") = false :=
    pyStartsWith_slash_append (str ".lk") hp (by decide)
  have hpsha : pyStartsWith (path ++ str ".hash.blob_sha1") (str "/") = false :=
    pyStartsWith_slash_append (str ".hash.blob_sha1") hp (by decide)
  have base_eq :
      (if D = [] then 0 else if pyEndsWith D (str "/") then D.length else D.length + 1) =
      (if H = [] then 0 else if pyEndsWith H (str "/") then H.length else H.length + 1) := by
    rw [if_neg nD, if_neg nH, endsDH, lDH]
  have base_pos :
      0 < (if D = [] then 0 else if pyEndsWith D (str "/") then D.length else D.length + 1) := by
    rw [if_neg nD]
    have : 0 < D.length := List.length_pos.mpr nD
    split <;> omega
  have lDest := @osJoin_length D path hp
  have lLk := @osJoin_length H (path ++ str ".lk") hplk
  have lSha := @osJoin_length H (path ++ str ".hash.blob_sha1") hpsha
  rw [List.length_append] at lLk lSha
  refine ⟨?_, ?_, ?_⟩
  · intro hcontra
    have hfp : (findFileParams cfg repos path tgt_env).dest = osJoin D path := rfl
    have hfl : (findFileParams cfg repos path tgt_env).lk = osJoin H (path ++ str ".lk") := rfl
    rw [hfp, hfl] at hcontra
    have := congrArg List.length hcontra
    rw [lDest, lLk, base_eq] at this
    simp [str] at this
  · intro hcontra
    have hfs : (findFileParams cfg repos path tgt_env).blobshadest =
        osJoin H (path ++ str ".hash.blob_sha1") := rfl
    have hfl : (findFileParams cfg repos path tgt_env).lk = osJoin H (path ++ str ".lk") := rfl
    rw [hfs, hfl] at hcontra
    have := congrArg List.length hcontra
    rw [lSha, lLk] at this
    simp [str] at this
  · intro hcontra
    have hfp : (findFileParams cfg repos path tgt_env).dest = osJoin D path := rfl
    rw [hfp] at hcontra
    have := congrArg List.length hcontra
    rw [lDest] at this
    simp only [List.length_nil] at this
    omega

/-! ## Filesystem lemmas -/

theorem alookup_filterKey (g : Str → Bool) (p : Str) (l : List (Str × Str)) :
    alookup p (l.filter (fun q => g q.1)) = if g p = true then alookup p l else none := by
  induction l with
  | nil => simp [alookup]
  | cons x xs ih =>
    rw [List.filter_cons]
    by_cases hg : g x.1 = true
    · rw [if_pos hg]
      by_cases hp : x.1 = p
      · subst hp
        simp [alookup, hg]
      · simp only [alookup, if_neg hp]
        exact ih
    · rw [if_neg hg]
      by_cases hp : x.1 = p
      · subst hp
        rw [ih, if_neg hg]
        simp only [alookup, if_pos rfl]
        rw [if_neg hg]
      · simp only [alookup, if_neg hp]
        exact ih

theorem alookup_eraseKey_ne (p q : Str) (l : List (Str × Str)) (h : p ≠ q) :
    alookup p (eraseKey q l) = alookup p l := by
  unfold eraseKey
  rw [alookup_filterKey (fun k => decide (k ≠ q)) p l, if_pos (by simpa using h)]

/-! ## Repo-loop lemmas -/

theorem findFileLoop_cons_none (pr : LoopParams) (fs : FS) (rc : RepoConf)
    (rest : List RepoConf) (h : resolveBlob pr rc = .ok none) :
    findFileLoop pr fs (rc :: rest) = findFileLoop pr fs rest := by
  conv_lhs => unfold findFileLoop
  rw [h]

theorem findFileLoop_cons_exc (pr : LoopParams) (fs : FS) (rc : RepoConf)
    (rest : List RepoConf) (h : resolveBlob pr rc = .exc) :
    findFileLoop pr fs (rc :: rest) = (.exc, fs) := by
  conv_lhs => unfold findFileLoop
  rw [h]

theorem findFileLoop_cons_some (pr : LoopParams) (fs : FS) (rc : RepoConf)
    (rest : List RepoConf) (sha data : Str) (h : resolveBlob pr rc = .ok (some (sha, data))) :
    findFileLoop pr fs (rc :: rest) =
      if isfile fs pr.blobshadest && isfile fs pr.dest then
        if readFile fs pr.blobshadest = sha then
          (.ok { rel := pr.path, path := pr.dest }, fs)
        else slowPath pr fs sha data
      else slowPath pr fs sha data := by
  unfold findFileLoop
  rw [h]

/-- The file map after the slow path, fully unfolded. -/
theorem slowPath_state (pr : LoopParams) (fs : FS) (sha data : Str) :
    (slowPath pr fs sha data).2.files =
      eraseKey pr.lk ((pr.blobshadest, sha) ::
        eraseKey pr.blobshadest ((pr.dest, data) ::
          eraseKey pr.dest ((removeGlob (writeFile fs pr.lk []) pr.hashesPfx).files))) := rfl

theorem slowPath_read_shadest (pr : LoopParams) (fs : FS) (sha data : Str)
    (hsl : pr.blobshadest ≠ pr.lk) :
    alookup pr.blobshadest (slowPath pr fs sha data).2.files = some sha := by
  rw [slowPath_state, alookup_eraseKey_ne _ _ _ hsl]
  simp [alookup]

theorem slowPath_isfile_dest (pr : LoopParams) (fs : FS) (sha data : Str)
    (hdl : pr.dest ≠ pr.lk) :
    isfile (slowPath pr fs sha data).2 pr.dest = true := by
  show (alookup pr.dest (slowPath pr fs sha data).2.files).isSome = true
  rw [slowPath_state, alookup_eraseKey_ne _ _ _ hdl]
  by_cases hds : pr.blobshadest = pr.dest
  · simp [alookup, hds]
  · simp only [alookup, if_neg hds]
    rw [alookup_eraseKey_ne _ _ _ (fun hcontra => hds hcontra.symm)]
    simp [alookup]

theorem findFileLoop_dirs (pr : LoopParams) (fs : FS) (l : List RepoConf) :
    (findFileLoop pr fs l).2.dirs = fs.dirs := by
  induction l generalizing fs with
  | nil => rfl
  | cons rc rest ih =>
    cases hres : resolveBlob pr rc with
    | exc =>
      rw [findFileLoop_cons_exc pr fs rc rest hres]
    | ok v =>
      cases v with
      | none =>
        rw [findFileLoop_cons_none pr fs rc rest hres]
        exact ih fs
      | some w =>
        cases w with
        | mk sha data =>
          rw [findFileLoop_cons_some pr fs rc rest sha data hres]
          by_cases h1 : (isfile fs pr.blobshadest && isfile fs pr.dest) = true
          · rw [if_pos h1]
            by_cases h2 : readFile fs pr.blobshadest = sha
            · rw [if_pos h2]
            · rw [if_neg h2]; rfl
          · rw [if_neg h1]; rfl

theorem findFileLoop_all_none (pr : LoopParams) (fs : FS) (l : List RepoConf)
    (h : ∀ rc ∈ l, resolveBlob pr rc = .ok none) :
    findFileLoop pr fs l = (.ok emptyFnd, fs) := by
  induction l with
  | nil => rfl
  | cons rc rest ih =>
    rw [findFileLoop_cons_none pr fs rc rest (h rc (by simp))]
    exact ih (fun rc' hrc' => h rc' (by simp [hrc']))

theorem findFileLoop_serves (pr : LoopParams) (fs : FS) (rc : RepoConf) (rest : List RepoConf)
    (sha data : Str) (h : resolveBlob pr rc = .ok (some (sha, data))) :
    (findFileLoop pr fs (rc :: rest)).1 = .ok { rel := pr.path, path := pr.dest } := by
  rw [findFileLoop_cons_some pr fs rc rest sha data h]
  by_cases h1 : (isfile fs pr.blobshadest && isfile fs pr.dest) = true
  · rw [if_pos h1]
    by_cases h2 : readFile fs pr.blobshadest = sha
    · rw [if_pos h2]
    · rw [if_neg h2]; rfl
  · rw [if_neg h1]; rfl

theorem findFileLoop_empty_state (pr : LoopParams) (fs : FS) (l : List RepoConf)
    (hne : pr.dest ≠ [])
    (h : (findFileLoop pr fs l).1 = .ok emptyFnd) :
    (findFileLoop pr fs l).2 = fs := by
  induction l generalizing fs with
  | nil => rfl
  | cons rc rest ih =>
    cases hres : resolveBlob pr rc with
    | exc =>
      rw [findFileLoop_cons_exc pr fs rc rest hres] at h
      exact Raised.noConfusion h
    | ok v =>
      cases v with
      | none =>
        rw [findFileLoop_cons_none pr fs rc rest hres] at h ⊢
        exact ih fs h
      | some w =>
        cases w with
        | mk sha data =>
          have hserved := findFileLoop_serves pr fs rc rest sha data hres
          rw [hserved] at h
          injection h with h
          exact absurd (congrArg Fnd.path h) hne

theorem findFileLoop_idem (pr : LoopParams) (hdl : pr.dest ≠ pr.lk)
    (hsl : pr.blobshadest ≠ pr.lk) (fs : FS) (l : List RepoConf) :
    findFileLoop pr (findFileLoop pr fs l).2 l = findFileLoop pr fs l := by
  induction l generalizing fs with
  | nil => rfl
  | cons rc rest ih =>
    cases hres : resolveBlob pr rc with
    | exc =>
      rw [findFileLoop_cons_exc pr fs rc rest hres]
      exact findFileLoop_cons_exc pr fs rc rest hres
    | ok v =>
      cases v with
      | none =>
        rw [findFileLoop_cons_none pr fs rc rest hres,
          findFileLoop_cons_none pr (findFileLoop pr fs rest).2 rc rest hres]
        exact ih fs
      | some w =>
        cases w with
        | mk sha data =>
          by_cases h1 : (isfile fs pr.blobshadest && isfile fs pr.dest) = true
          · by_cases h2 : readFile fs pr.blobshadest = sha
            · have hX : findFileLoop pr fs (rc :: rest) =
                  (.ok { rel := pr.path, path := pr.dest }, fs) := by
                rw [findFileLoop_cons_some pr fs rc rest sha data hres, if_pos h1, if_pos h2]
              rw [hX]
              exact hX
            · have hX : findFileLoop pr fs (rc :: rest) = slowPath pr fs sha data := by
                rw [findFileLoop_cons_some pr fs rc rest sha data hres, if_pos h1, if_neg h2]
              rw [hX]
              have hif1 : isfile (slowPath pr fs sha data).2 pr.blobshadest = true := by
                show (alookup pr.blobshadest (slowPath pr fs sha data).2.files).isSome = true
                rw [slowPath_read_shadest pr fs sha data hsl]
                rfl
              have hcond : (isfile (slowPath pr fs sha data).2 pr.blobshadest &&
                  isfile (slowPath pr fs sha data).2 pr.dest) = true := by
                rw [hif1, slowPath_isfile_dest pr fs sha data hdl]
                rfl
              have hread : readFile (slowPath pr fs sha data).2 pr.blobshadest = sha := by
                show (alookup pr.blobshadest (slowPath pr fs sha data).2.files).getD [] = sha
                rw [slowPath_read_shadest pr fs sha data hsl]
                rfl
              rw [findFileLoop_cons_some pr (slowPath pr fs sha data).2 rc rest sha data hres,
                if_pos hcond, if_pos hread]
              rfl
          · have hX : findFileLoop pr fs (rc :: rest) = slowPath pr fs sha data := by
              rw [findFileLoop_cons_some pr fs rc rest sha data hres, if_neg h1]
            rw [hX]
            have hif1 : isfile (slowPath pr fs sha data).2 pr.blobshadest = true := by
              show (alookup pr.blobshadest (slowPath pr fs sha data).2.files).isSome = true
              rw [slowPath_read_shadest pr fs sha data hsl]
              rfl
            have hcond : (isfile (slowPath pr fs sha data).2 pr.blobshadest &&
                isfile (slowPath pr fs sha data).2 pr.dest) = true := by
              rw [hif1, slowPath_isfile_dest pr fs sha data hdl]
              rfl
            have hread : readFile (slowPath pr fs sha data).2 pr.blobshadest = sha := by
              show (alookup pr.blobshadest (slowPath pr fs sha data).2.files).getD [] = sha
              rw [slowPath_read_shadest pr fs sha data hsl]
              rfl
            rw [findFileLoop_cons_some pr (slowPath pr fs sha data).2 rc rest sha data hres,
              if_pos hcond, if_pos hread]
            rfl

/-! ## `find_file`-level lemmas -/

theorem isdir_mkdir_self (fs : FS) (p : Str) : isdir (mkdir fs p) p = true := by
  simp [isdir, mkdir]

theorem isdir_mkdir_mono (fs : FS) (q p : Str) (h : isdir fs p = true) :
    isdir (mkdir fs q) p = true := by
  simp [isdir, mkdir] at h ⊢
  exact Or.inr h

theorem prepDirs_isdir_dest (fs : FS) (dd hd : Str) :
    isdir (prepDirs fs dd hd) dd = true := by
  unfold prepDirs
  have base : isdir (if isdir fs dd then fs else mkdir fs dd) dd = true := by
    by_cases hb : isdir fs dd = true
    · rw [if_pos hb]; exact hb
    · rw [if_neg hb]; exact isdir_mkdir_self fs dd
  by_cases h2 : isdir (if isdir fs dd then fs else mkdir fs dd) hd = true
  · rw [if_pos h2]; exact base
  · rw [if_neg h2]; exact isdir_mkdir_mono _ hd dd base

theorem prepDirs_isdir_hash (fs : FS) (dd hd : Str) :
    isdir (prepDirs fs dd hd) hd = true := by
  unfold prepDirs
  by_cases h2 : isdir (if isdir fs dd then fs else mkdir fs dd) hd = true
  · rw [if_pos h2]; exact h2
  · rw [if_neg h2]; exact isdir_mkdir_self _ hd

theorem prepDirs_of_isdir (fs : FS) (dd hd : Str) (h1 : isdir fs dd = true)
    (h2 : isdir fs hd = true) : prepDirs fs dd hd = fs := by
  unfold prepDirs
  rw [if_pos h1, if_pos h2]

theorem prepDirs_files (fs : FS) (dd hd : Str) : (prepDirs fs dd hd).files = fs.files := by
  unfold prepDirs
  by_cases h1 : isdir fs dd = true
  · rw [if_pos h1]
    by_cases h2 : isdir fs hd = true
    · rw [if_pos h2]
    · rw [if_neg h2]; rfl
  · rw [if_neg h1]
    by_cases h2 : isdir (mkdir fs dd) hd = true
    · rw [if_pos h2]; rfl
    · rw [if_neg h2]; rfl

theorem find_file_abs (cfg : GitfsConfig) (repos : List RepoConf) (fs : FS)
    (path tgt_env : Str) (h : isabs path = true) :
    find_file cfg repos fs path tgt_env = (.ok emptyFnd, fs) := by
  unfold find_file
  rw [if_pos h]

theorem find_file_rel (cfg : GitfsConfig) (repos : List RepoConf) (fs : FS)
    (path tgt_env : Str) (h : isabs path = false) :
    find_file cfg repos fs path tgt_env =
      findFileLoop (findFileParams cfg repos path tgt_env)
        (prepDirs fs (dirname (findFileParams cfg repos path tgt_env).dest)
          (dirname (findFileParams cfg repos path tgt_env).blobshadest))
        repos := by
  unfold find_file
  rw [if_neg (by simp [h])]

/-- The full idempotence of `find_file` on the filesystem state: a
second call with identical arguments returns the same `{rel, path}`
result and leaves the state exactly as the first call left it.  The
sole hypothesis is that the effective target environment is not an
absolute path (so that the computed cache file names cannot collide). -/
theorem find_file_idem_general (cfg : GitfsConfig) (repos : List RepoConf) (fs : FS)
    (path tgt_env : Str)
    (he : pyStartsWith (effectiveEnv cfg tgt_env) (str "/") = false) :
    find_file cfg repos (find_file cfg repos fs path tgt_env).2 path tgt_env =
      find_file cfg repos fs path tgt_env := by
  by_cases habs : isabs path = true
  · rw [find_file_abs cfg repos fs path tgt_env habs]
    exact find_file_abs cfg repos fs path tgt_env habs
  · have h : isabs path = false := by simpa using habs
    obtain ⟨hdl, hsl, hdne⟩ := findFileParams_sep cfg repos path tgt_env he h
    rw [find_file_rel cfg repos fs path tgt_env h]
    rw [find_file_rel cfg repos
      (findFileLoop (findFileParams cfg repos path tgt_env)
        (prepDirs fs (dirname (findFileParams cfg repos path tgt_env).dest)
          (dirname (findFileParams cfg repos path tgt_env).blobshadest)) repos).2
      path tgt_env h]
    have hdirs := findFileLoop_dirs (findFileParams cfg repos path tgt_env)
      (prepDirs fs (dirname (findFileParams cfg repos path tgt_env).dest)
        (dirname (findFileParams cfg repos path tgt_env).blobshadest)) repos
    have hd1 : isdir
        (findFileLoop (findFileParams cfg repos path tgt_env)
          (prepDirs fs (dirname (findFileParams cfg repos path tgt_env).dest)
            (dirname (findFileParams cfg repos path tgt_env).blobshadest)) repos).2
        (dirname (findFileParams cfg repos path tgt_env).dest) = true := by
      show List.contains _ _ = true
      rw [hdirs]
      exact prepDirs_isdir_dest fs _ _
    have hd2 : isdir
        (findFileLoop (findFileParams cfg repos path tgt_env)
          (prepDirs fs (dirname (findFileParams cfg repos path tgt_env).dest)
            (dirname (findFileParams cfg repos path tgt_env).blobshadest)) repos).2
        (dirname (findFileParams cfg repos path tgt_env).blobshadest) = true := by
      show List.contains _ _ = true
      rw [hdirs]
      exact prepDirs_isdir_hash fs _ _
    rw [prepDirs_of_isdir _ _ _ hd1 hd2]
    exact findFileLoop_idem (findFileParams cfg repos path tgt_env) hdl hsl _ repos

/-! ## Characterizing `envs` membership -/

theorem mem_envs_dulwich_iff (exposed : Str → Bool) (base_branch : Str) (repo : DRepo)
    (e : Str) :
    e ∈ _envs_dulwich exposed base_branch repo ↔
      ∃ ref ∈ _dulwich_env_refs (getRefs repo), envContrib exposed base_branch ref e := by
  unfold _envs_dulwich
  generalize _dulwich_env_refs (getRefs repo) = l
  induction l with
  | nil => simp
  | cons r rs ih =>
    rw [List.foldr_cons]
    have hsplit :
        (∃ ref ∈ r :: rs, envContrib exposed base_branch ref e) ↔
          envContrib exposed base_branch r e ∨
            ∃ ref ∈ rs, envContrib exposed base_branch ref e := by
      constructor
      · rintro ⟨ref, hmem, hc⟩
        rcases List.mem_cons.mp hmem with rfl | hmem'
        · exact Or.inl hc
        · exact Or.inr ⟨ref, hmem', hc⟩
      · rintro (hc | ⟨ref, hmem, hc⟩)
        · exact ⟨r, by simp, hc⟩
        · exact ⟨ref, by simp [hmem], hc⟩
    rw [hsplit]
    cases hs : splitOnce '/' (r.drop 5) with
    | none =>
      simp only [hs]
      rw [ih]
      have : ¬ envContrib exposed base_branch r e := by
        rintro ⟨rt, rs0, hsp, -⟩
        rw [hs] at hsp
        cases hsp
      tauto
    | some p =>
      cases p with
      | mk rt0 rs0 =>
        simp only [hs]
        by_cases hh : rt0 = str "heads"
        · rw [if_pos hh]
          have hcon : envContrib exposed base_branch r e ↔
              (e = (if pyReplace rs0 '/' '_' = base_branch then str "base"
                    else pyReplace rs0 '/' '_') ∧ exposed e = true) := by
            constructor
            · rintro ⟨rt, rs1, hsp, hor⟩
              rw [hs] at hsp
              cases hsp
              rcases hor with ⟨-, h2, h3⟩ | ⟨hne, -, -⟩
              · exact ⟨h2, h3⟩
              · exact absurd hh hne
            · rintro ⟨h2, h3⟩
              exact ⟨rt0, rs0, hs, Or.inl ⟨hh, h2, h3⟩⟩
          by_cases hex :
              exposed (if pyReplace rs0 '/' '_' = base_branch then str "base"
                else pyReplace rs0 '/' '_') = true
          · rw [if_pos hex, List.mem_cons, ih, hcon]
            constructor
            · rintro (rfl | h)
              · exact Or.inl ⟨rfl, hex⟩
              · exact Or.inr h
            · rintro (⟨rfl, -⟩ | h)
              · exact Or.inl rfl
              · exact Or.inr h
          · rw [if_neg hex, ih, hcon]
            constructor
            · exact Or.inr
            · rintro (⟨rfl, hx⟩ | h)
              · exact absurd hx hex
              · exact h
        · rw [if_neg hh]
          by_cases ht : rt0 = str "tags"
          · rw [if_pos ht]
            have hcon : envContrib exposed base_branch r e ↔
                (e = pyReplace rs0 '/' '_' ∧ exposed e = true) := by
              constructor
              · rintro ⟨rt, rs1, hsp, hor⟩
                rw [hs] at hsp
                cases hsp
                rcases hor with ⟨h1, -, -⟩ | ⟨-, -, h2, h3⟩
                · exact absurd h1 hh
                · exact ⟨h2, h3⟩
              · rintro ⟨h2, h3⟩
                exact ⟨rt0, rs0, hs, Or.inr ⟨hh, ht, h2, h3⟩⟩
            by_cases hex : exposed (pyReplace rs0 '/' '_') = true
            · rw [if_pos hex, List.mem_cons, ih, hcon]
              constructor
              · rintro (rfl | h)
                · exact Or.inl ⟨rfl, hex⟩
                · exact Or.inr h
              · rintro (⟨rfl, -⟩ | h)
                · exact Or.inl rfl
                · exact Or.inr h
            · rw [if_neg hex, ih, hcon]
              constructor
              · exact Or.inr
              · rintro (⟨rfl, hx⟩ | h)
                · exact absurd hx hex
                · exact h
          · rw [if_neg ht, ih]
            have : ¬ envContrib exposed base_branch r e := by
              rintro ⟨rt, rs1, hsp, hor⟩
              rw [hs] at hsp
              cases hsp
              rcases hor with ⟨h1, -, -⟩ | ⟨-, h1, -, -⟩
              · exact hh h1
              · exact ht h1
            tauto

theorem mem_envs_dulwich_top (exposed : Str → Bool) (base_branch : Str)
    (repos : List DRepo) (e : Str) :
    e ∈ envs_dulwich exposed base_branch repos ↔
      ∃ repo ∈ repos, e ∈ _envs_dulwich exposed base_branch repo := by
  unfold envs_dulwich sortStrs
  rw [List.mem_insertionSort, List.mem_dedup]
  induction repos with
  | nil => simp
  | cons r rs ih =>
    rw [List.foldr_cons, List.mem_append, ih]
    constructor
    · rintro (h | ⟨repo, hmem, h⟩)
      · exact ⟨r, by simp, h⟩
      · exact ⟨repo, by simp [hmem], h⟩
    · rintro ⟨repo, hmem, h⟩
      rcases List.mem_cons.mp hmem with rfl | hmem'
      · exact Or.inl h
      · exact Or.inr ⟨repo, hmem', h⟩

theorem mem_envs_gitpython_iff (exposed : Str → Bool) (base_branch : Str) (repo : GRepo)
    (e : Str) :
    e ∈ _envs_gitpython exposed base_branch repo ↔
      ∃ ref ∈ repo.refs, envContribG exposed base_branch repo ref e := by
  unfold _envs_gitpython
  have main : ∀ l : List GRef,
      (e ∈ l.foldr (fun ref acc =>
        let rspec := gitRefSpec ref.name
        match ref.kind with
        | .head =>
          let rspec := if rspec = base_branch then str "base" else rspec
          if !repo.stale.contains ref && exposed rspec then rspec :: acc else acc
        | .tagref => if exposed rspec then rspec :: acc else acc
        | .other => acc) []) ↔
      ∃ ref ∈ l, envContribG exposed base_branch repo ref e := by
    intro l
    induction l with
    | nil => simp
    | cons r rs ih =>
      rw [List.foldr_cons]
      have hsplit :
          (∃ ref ∈ r :: rs, envContribG exposed base_branch repo ref e) ↔
            envContribG exposed base_branch repo r e ∨
              ∃ ref ∈ rs, envContribG exposed base_branch repo ref e := by
        constructor
        · rintro ⟨ref, hmem, hc⟩
          rcases List.mem_cons.mp hmem with rfl | hmem'
          · exact Or.inl hc
          · exact Or.inr ⟨ref, hmem', hc⟩
        · rintro (hc | ⟨ref, hmem, hc⟩)
          · exact ⟨r, by simp, hc⟩
          · exact ⟨ref, by simp [hmem], hc⟩
      rw [hsplit]
      cases hk : r.kind with
      | head =>
        simp only [hk]
        have hcon : envContribG exposed base_branch repo r e ↔
            (repo.stale.contains r = false ∧
              e = (if gitRefSpec r.name = base_branch then str "base"
                   else gitRefSpec r.name) ∧ exposed e = true) := by
          unfold envContribG
          rw [hk]
          constructor
          · rintro (⟨-, h1, h2, h3⟩ | ⟨hbad, -⟩)
            · exact ⟨h1, h2, h3⟩
            · cases hbad
          · rintro ⟨h1, h2, h3⟩
            exact Or.inl ⟨rfl, h1, h2, h3⟩
        by_cases hcond : (!repo.stale.contains r &&
            exposed (if gitRefSpec r.name = base_branch then str "base"
              else gitRefSpec r.name)) = true
        · rw [if_pos hcond, List.mem_cons, ih, hcon]
          rw [Bool.and_eq_true, Bool.not_eq_true'] at hcond
          constructor
          · rintro (rfl | h)
            · exact Or.inl ⟨hcond.1, rfl, hcond.2⟩
            · exact Or.inr h
          · rintro (⟨-, rfl, -⟩ | h)
            · exact Or.inl rfl
            · exact Or.inr h
        · rw [if_neg hcond, ih, hcon]
          rw [Bool.and_eq_true, Bool.not_eq_true'] at hcond
          constructor
          · exact Or.inr
          · rintro (⟨h1, rfl, h3⟩ | h)
            · exact absurd ⟨h1, h3⟩ hcond
            · exact h
      | tagref =>
        simp only [hk]
        have hcon : envContribG exposed base_branch repo r e ↔
            (e = gitRefSpec r.name ∧ exposed e = true) := by
          unfold envContribG
          rw [hk]
          constructor
          · rintro (⟨hbad, -⟩ | ⟨-, h2, h3⟩)
            · cases hbad
            · exact ⟨h2, h3⟩
          · rintro ⟨h2, h3⟩
            exact Or.inr ⟨rfl, h2, h3⟩
        by_cases hex : exposed (gitRefSpec r.name) = true
        · rw [if_pos hex, List.mem_cons, ih, hcon]
          constructor
          · rintro (rfl | h)
            · exact Or.inl ⟨rfl, hex⟩
            · exact Or.inr h
          · rintro (⟨rfl, -⟩ | h)
            · exact Or.inl rfl
            · exact Or.inr h
        · rw [if_neg hex, ih, hcon]
          constructor
          · exact Or.inr
          · rintro (⟨rfl, hx⟩ | h)
            · exact absurd hx hex
            · exact h
      | other =>
        simp only [hk]
        rw [ih]
        have : ¬ envContribG exposed base_branch repo r e := by
          rintro (⟨hbad, -⟩ | ⟨hbad, -⟩) <;> rw [hk] at hbad <;> cases hbad
        tauto
  exact main repo.refs

theorem mem_envs_gitpython_top (exposed : Str → Bool) (base_branch : Str)
    (repos : List GRepo) (e : Str) :
    e ∈ envs_gitpython exposed base_branch repos ↔
      ∃ repo ∈ repos, e ∈ _envs_gitpython exposed base_branch repo := by
  unfold envs_gitpython sortStrs
  rw [List.mem_insertionSort, List.mem_dedup]
  induction repos with
  | nil => simp
  | cons r rs ih =>
    rw [List.foldr_cons, List.mem_append, ih]
    constructor
    · rintro (h | ⟨repo, hmem, h⟩)
      · exact ⟨r, by simp, h⟩
      · exact ⟨repo, by simp [hmem], h⟩
    · rintro ⟨repo, hmem, h⟩
      rcases List.mem_cons.mp hmem with rfl | hmem'
      · exact Or.inl h
      · exact Or.inr ⟨repo, hmem', h⟩

/-! ## Reconstructing ref shapes from parses -/

theorem heads_ref_parse (bb : Str) :
    splitOnce '/' ((str "refs/heads/" ++ bb).drop 5) = some (str "heads", bb) := by
  show splitOnce '/' (str "heads" ++ '/' :: bb) = some (str "heads", bb)
  exact splitOnce_at_sep (by decide) bb

theorem tags_ref_parse (tt : Str) :
    splitOnce '/' ((str "refs/tags/" ++ tt).drop 5) = some (str "tags", tt) := by
  show splitOnce '/' (str "tags" ++ '/' :: tt) = some (str "tags", tt)
  exact splitOnce_at_sep (by decide) tt

theorem heads_ref_starts (bb : Str) :
    pyStartsWith (str "refs/heads/" ++ bb) (str "refs/heads") = true :=
  (pyStartsWith_iff (str "refs/heads") (str "refs/heads/" ++ bb)).mpr ⟨'/' :: bb, rfl⟩

theorem tags_ref_starts (tt : Str) :
    pyStartsWith (str "refs/tags/" ++ tt) (str "refs/tags") = true :=
  (pyStartsWith_iff (str "refs/tags") (str "refs/tags/" ++ tt)).mpr ⟨'/' :: tt, rfl⟩

/-- A ref that passes the heads/tags filter and whose remainder after
`refs/` parses with category `tags` is literally `refs/tags/<spec>`. -/
theorem tags_ref_shape {ref rs0 : Str}
    (hstart : pyStartsWith ref (str "refs/heads") = true ∨
      pyStartsWith ref (str "refs/tags") = true)
    (hsp : splitOnce '/' (ref.drop 5) = some (str "tags", rs0)) :
    ref = str "refs/tags/" ++ rs0 := by
  rcases hstart with h | h
  · rcases (pyStartsWith_iff _ _).mp h with ⟨t, rfl⟩
    rw [show (str "refs/heads" ++ t).drop 5 = str "heads" ++ t from rfl,
      splitOnce_append (by decide) t] at hsp
    cases hst : splitOnce '/' t with
    | none => rw [hst] at hsp; cases hsp
    | some p =>
      cases p with
      | mk x y =>
        rw [hst] at hsp
        simp only [Option.map_some', Option.some.injEq, Prod.mk.injEq] at hsp
        have := congrArg List.length hsp.1
        simp [str] at this
  · rcases (pyStartsWith_iff _ _).mp h with ⟨t, rfl⟩
    rw [show (str "refs/tags" ++ t).drop 5 = str "tags" ++ t from rfl,
      splitOnce_append (by decide) t] at hsp
    cases hst : splitOnce '/' t with
    | none => rw [hst] at hsp; cases hsp
    | some p =>
      cases p with
      | mk x y =>
        rw [hst] at hsp
        simp only [Option.map_some', Option.some.injEq, Prod.mk.injEq] at hsp
        obtain ⟨h1, h2⟩ := hsp
        have hx : x = [] := by
          have := congrArg List.length h1
          simp [str] at this
          exact this
        subst hx
        have ht := splitOnce_eq_some hst
        rw [ht, h2]
        rfl

/-- Symmetrically for the heads category. -/
theorem heads_ref_shape {ref rs0 : Str}
    (hstart : pyStartsWith ref (str "refs/heads") = true ∨
      pyStartsWith ref (str "refs/tags") = true)
    (hsp : splitOnce '/' (ref.drop 5) = some (str "heads", rs0)) :
    ref = str "refs/heads/" ++ rs0 := by
  rcases hstart with h | h
  · rcases (pyStartsWith_iff _ _).mp h with ⟨t, rfl⟩
    rw [show (str "refs/heads" ++ t).drop 5 = str "heads" ++ t from rfl,
      splitOnce_append (by decide) t] at hsp
    cases hst : splitOnce '/' t with
    | none => rw [hst] at hsp; cases hsp
    | some p =>
      cases p with
      | mk x y =>
        rw [hst] at hsp
        simp only [Option.map_some', Option.some.injEq, Prod.mk.injEq] at hsp
        obtain ⟨h1, h2⟩ := hsp
        have hx : x = [] := by
          have := congrArg List.length h1
          simp [str] at this
          exact this
        subst hx
        have ht := splitOnce_eq_some hst
        rw [ht, h2]
        rfl
  · rcases (pyStartsWith_iff _ _).mp h with ⟨t, rfl⟩
    rw [show (str "refs/tags" ++ t).drop 5 = str "tags" ++ t from rfl,
      splitOnce_append (by decide) t] at hsp
    cases hst : splitOnce '/' t with
    | none => rw [hst] at hsp; cases hsp
    | some p =>
      cases p with
      | mk x y =>
        rw [hst] at hsp
        simp only [Option.map_some', Option.some.injEq, Prod.mk.injEq] at hsp
        have h1 := hsp.1
        rw [show str "tags" = 't' :: str "ags" from rfl,
          show str "heads" = 'h' :: str "eads" from rfl, List.cons_append] at h1
        simp at h1

/-- Membership of a well-formed branch ref in the env-ref filter. -/
theorem heads_ref_mem_filter {repo : DRepo} {bb : Str}
    (hmem : (str "refs/heads/" ++ bb) ∈ getRefs repo)
    (hend : pyEndsWith (str "refs/heads/" ++ bb) (str "^\x7b\x7d") = false) :
    (str "refs/heads/" ++ bb) ∈ _dulwich_env_refs (getRefs repo) := by
  rw [_dulwich_env_refs, List.mem_filter]
  refine ⟨hmem, ?_⟩
  rw [heads_ref_starts bb, hend]
  rfl

theorem tags_ref_mem_filter {repo : DRepo} {tt : Str}
    (hmem : (str "refs/tags/" ++ tt) ∈ getRefs repo)
    (hend : pyEndsWith (str "refs/tags/" ++ tt) (str "^\x7b\x7d") = false) :
    (str "refs/tags/" ++ tt) ∈ _dulwich_env_refs (getRefs repo) := by
  rw [_dulwich_env_refs, List.mem_filter]
  refine ⟨hmem, ?_⟩
  rw [tags_ref_starts tt, hend]
  rfl

/-- An element of the env-ref filter starts with one of the two
category markers. -/
theorem mem_filter_starts {refs : List Str} {ref : Str}
    (h : ref ∈ _dulwich_env_refs refs) :
    pyStartsWith ref (str "refs/heads") = true ∨
      pyStartsWith ref (str "refs/tags") = true := by
  rw [_dulwich_env_refs, List.mem_filter] at h
  have := h.2
  rw [Bool.and_eq_true, Bool.or_eq_true] at this
  exact this.1

/-! ## The ref scan on the sorted ref list -/

theorem strLeP_refl : ∀ a : Str, strLeP a a := by
  intro a
  induction a with
  | nil => rfl
  | cons x xs ih =>
    show strLe _ _ = true
    simp [strLe]
    exact ih

theorem strLe_cons_same (c : Char) (x y : Str) : strLe (c :: x) (c :: y) = strLe x y := by
  simp [strLe]

theorem strLe_cons_gt {a b : Char} (h1 : ¬ a < b) (h2 : a ≠ b) (x y : Str) :
    strLe (a :: x) (b :: y) = false := by
  simp [strLe, h1, h2]

/-- Any `refs/tags/...` name sorts strictly after any `refs/heads/...`
name, which is why the sorted ref scan tries branches first. -/
theorem strLe_tags_heads (t b : Str) :
    strLe (str "refs/tags/" ++ t) (str "refs/heads/" ++ b) = false := by
  show strLe ('r' :: 'e' :: 'f' :: 's' :: '/' :: 't' :: (str "ags/" ++ t))
    ('r' :: 'e' :: 'f' :: 's' :: '/' :: 'h' :: (str "eads/" ++ b)) = false
  rw [strLe_cons_same, strLe_cons_same, strLe_cons_same, strLe_cons_same, strLe_cons_same,
    strLe_cons_gt (by decide) (by decide)]

theorem refScanLoop_eq_find (repo : DRepo) (exposed : Str → Bool) (short : Str)
    (l : List Str) :
    refScanLoop repo exposed short l =
      (l.find? (refMatches exposed short)).map (refPayload repo) := by
  induction l with
  | nil => rfl
  | cons r rs ih =>
    unfold refScanLoop
    by_cases h : refMatches exposed short r = true
    · rw [if_pos h, List.find?_cons_of_pos _ h]
      rfl
    · rw [if_neg h, List.find?_cons_of_neg _ (by simp [h]), ih]

/-- `find?` on a sorted list returns a minimal match. -/
theorem find_first_sorted {p : Str → Bool} :
    ∀ {l : List Str}, List.Pairwise strLeP l → ∀ {x : Str}, l.find? p = some x →
      ∀ y ∈ l, p y = true → strLeP x y := by
  intro l
  induction l with
  | nil => intro _ x hx; cases hx
  | cons a as ih =>
    intro hpw x hx y hy hpy
    rcases List.pairwise_cons.mp hpw with ⟨ha, hpw'⟩
    by_cases hpa : p a = true
    · rw [List.find?_cons_of_pos _ hpa] at hx
      injection hx with hx
      subst hx
      rcases List.mem_cons.mp hy with rfl | hy'
      · exact strLeP_refl y
      · exact ha y hy'
    · rw [List.find?_cons_of_neg _ (by simp [hpa])] at hx
      rcases List.mem_cons.mp hy with rfl | hy'
      · exact absurd hpy hpa
      · exact ih hpw' hx y hy' hpy

/-! ## Claim C1 -/

/-- C1 counterexample: with base branch `production` and a repo whose
refs are the branch `production` and the tag `production` (all
environments exposed), `envs()` contains `base` but ALSO contains
`production` — the tag is not renamed — so the claim "the list returned
by envs() contains `base` and does not contain `b`" is false as
stated. -/
theorem claim_C1_counterexample :
    (str "base") ∈ envs_dulwich expAll (str "production") [repoC1] ∧
    (str "production") ∈ envs_dulwich expAll (str "production") [repoC1] := by
  decide

/-- C1 (amended): for both providers, if `base` passes the exposure
check, `b` is not itself the literal name `base`, some repo has a
branch whose sanitized name is `b`, and no repo has a tag whose
sanitized name is `b`, then `envs()` contains `base` and does not
contain `b`.  (The amendment adds the no-tag-named-`b` proviso that the
counterexample forces, together with the exposure of `base`; every
branch sanitizing to `b` is renamed, but tags are never renamed.) -/
theorem claim_C1 (exposed : Str → Bool) (b : Str)
    (repos : List DRepo) (grepos : List GRepo)
    (hexp : exposed (str "base") = true)
    (hbase : b ≠ str "base")
    (repo : DRepo) (bb : Str) (hrepo : repo ∈ repos)
    (hmem : (str "refs/heads/" ++ bb) ∈ getRefs repo)
    (hend : pyEndsWith (str "refs/heads/" ++ bb) (str "^\x7b\x7d") = false)
    (hsan : pyReplace bb '/' '_' = b)
    (hnotag : ∀ r ∈ repos, ∀ tt, (str "refs/tags/" ++ tt) ∈ getRefs r →
      pyReplace tt '/' '_' ≠ b)
    (grepo : GRepo) (gref : GRef) (hgrepo : grepo ∈ grepos)
    (hgref : gref ∈ grepo.refs) (hghead : gref.kind = GRefKind.head)
    (hgstale : grepo.stale.contains gref = false)
    (hgsan : gitRefSpec gref.name = b)
    (hgnotag : ∀ r ∈ grepos, ∀ ref ∈ r.refs, ref.kind = GRefKind.tagref →
      gitRefSpec ref.name ≠ b) :
    ((str "base") ∈ envs_dulwich exposed b repos ∧ b ∉ envs_dulwich exposed b repos) ∧
    ((str "base") ∈ envs_gitpython exposed b grepos ∧
      b ∉ envs_gitpython exposed b grepos) := by
  refine ⟨⟨?_, ?_⟩, ?_, ?_⟩
  · exact (mem_envs_dulwich_top exposed b repos (str "base")).mpr
      ⟨repo, hrepo, (mem_envs_dulwich_iff exposed b repo (str "base")).mpr
        ⟨str "refs/heads/" ++ bb, heads_ref_mem_filter hmem hend,
          str "heads", bb, heads_ref_parse bb,
          Or.inl ⟨rfl, by rw [hsan, if_pos rfl], hexp⟩⟩⟩
  · intro hbad
    obtain ⟨r, hr, hmem'⟩ := (mem_envs_dulwich_top exposed b repos b).mp hbad
    obtain ⟨ref, hfil, rt, rs0, hsp, hor⟩ :=
      (mem_envs_dulwich_iff exposed b r b).mp hmem'
    rcases hor with ⟨hh, he2, -⟩ | ⟨-, ht, he2, -⟩
    · by_cases hc : pyReplace rs0 '/' '_' = b
      · rw [if_pos hc] at he2
        exact hbase he2
      · rw [if_neg hc] at he2
        exact hc he2.symm
    · rw [ht] at hsp
      have hshape := tags_ref_shape (mem_filter_starts hfil) hsp
      have hrefmem : ref ∈ getRefs r := by
        rw [_dulwich_env_refs, List.mem_filter] at hfil
        exact hfil.1
      rw [hshape] at hrefmem
      exact hnotag r hr rs0 hrefmem he2.symm
  · exact (mem_envs_gitpython_top exposed b grepos (str "base")).mpr
      ⟨grepo, hgrepo, (mem_envs_gitpython_iff exposed b grepo (str "base")).mpr
        ⟨gref, hgref, Or.inl ⟨hghead, hgstale, by rw [hgsan, if_pos rfl], hexp⟩⟩⟩
  · intro hbad
    obtain ⟨r, hr, hmem'⟩ := (mem_envs_gitpython_top exposed b grepos b).mp hbad
    obtain ⟨ref, href, hor⟩ := (mem_envs_gitpython_iff exposed b r b).mp hmem'
    rcases hor with ⟨-, -, he2, -⟩ | ⟨hkind, he2, -⟩
    · by_cases hc : gitRefSpec ref.name = b
      · rw [if_pos hc] at he2
        exact hbase he2
      · rw [if_neg hc] at he2
        exact hc he2.symm
    · exact hgnotag r hr ref href hkind he2.symm

/-- C1 witness: the amended claim at a concrete configuration with base
branch `production`, one dulwich repo carrying only the branch
`production` and one gitpython repo carrying only the remote branch
`origin/production`. -/
theorem claim_C1_witness :
    ((str "base") ∈ envs_dulwich expAll (str "production") [repoC1w] ∧
      (str "production") ∉ envs_dulwich expAll (str "production") [repoC1w]) ∧
    ((str "base") ∈ envs_gitpython expAll (str "production") [grepoC1w] ∧
      (str "production") ∉ envs_gitpython expAll (str "production") [grepoC1w]) := by
  refine claim_C1 expAll (str "production") [repoC1w] [grepoC1w] rfl (by decide)
    repoC1w (str "production") (by decide) (by decide) (by decide) (by decide)
    ?_ grepoC1w (GRef.mk (str "origin/production") GRefKind.head) (by decide)
    (by decide) rfl rfl rfl ?_
  · intro r hr tt hmem'
    rw [List.mem_singleton] at hr
    subst hr
    intro _
    have h1 : ((str "refs/tags/" ++ tt).get? 5) = some 't' := rfl
    rw [show getRefs repoC1w = [str "refs/heads/production"] from rfl,
      List.mem_singleton] at hmem'
    rw [hmem'] at h1
    cases h1
  · intro r hr ref href hkind
    rw [List.mem_singleton] at hr
    subst hr
    rw [show grepoC1w.refs = [GRef.mk (str "origin/production") GRefKind.head] from rfl,
      List.mem_singleton] at href
    rw [href] at hkind
    cases hkind

/-! ## Claim C8 -/

/-- C8: every environment name returned by `envs()` passes the
whitelist/blacklist exposure check and is derived from some repo's
branch or tag ref — for the gitpython provider additionally from a
branch that is not in the remote's `stale_refs` — and the returned list
is sorted.  (For the dulwich provider the stale refs were already
deleted from the local ref table by `update`, so no stale check appears
in `_envs_dulwich`.)  Names from refs that are neither branches nor
tags never contribute, because `envContribG` requires the `head` or
`tag` class and `envContrib` requires the `heads` or `tags`
category. -/
theorem claim_C8 (exposed : Str → Bool) (base_branch : Str)
    (grepos : List GRepo) (repos : List DRepo) (e f : Str)
    (he : e ∈ envs_gitpython exposed base_branch grepos)
    (hf : f ∈ envs_dulwich exposed base_branch repos) :
    exposed e = true ∧
    (∃ repo ∈ grepos, ∃ ref ∈ repo.refs, envContribG exposed base_branch repo ref e) ∧
    List.Sorted strLeP (envs_gitpython exposed base_branch grepos) ∧
    exposed f = true ∧
    (∃ repo ∈ repos, ∃ ref ∈ _dulwich_env_refs (getRefs repo),
      envContrib exposed base_branch ref f) ∧
    List.Sorted strLeP (envs_dulwich exposed base_branch repos) := by
  obtain ⟨grepo, hgrepo, hmem'⟩ := (mem_envs_gitpython_top exposed base_branch grepos e).mp he
  obtain ⟨gref, hgref, hgc⟩ := (mem_envs_gitpython_iff exposed base_branch grepo e).mp hmem'
  obtain ⟨repo, hrepo, hmem''⟩ := (mem_envs_dulwich_top exposed base_branch repos f).mp hf
  obtain ⟨ref, hrf, hc⟩ := (mem_envs_dulwich_iff exposed base_branch repo f).mp hmem''
  refine ⟨?_, ⟨grepo, hgrepo, gref, hgref, hgc⟩, ?_, ?_, ⟨repo, hrepo, ref, hrf, hc⟩, ?_⟩
  · rcases hgc with ⟨-, -, -, hx⟩ | ⟨-, -, hx⟩ <;> exact hx
  · exact List.sorted_insertionSort strLeP _
  · obtain ⟨rt, rs0, hsp, hor⟩ := hc
    rcases hor with ⟨-, -, hx⟩ | ⟨-, -, -, hx⟩ <;> exact hx
  · exact List.sorted_insertionSort strLeP _

/-- C8 witness: the exposure, source-ref and sortedness facts at a
concrete configuration (`dev` from a gitpython remote branch, `x` from
a dulwich branch). -/
theorem claim_C8_witness :
    expAll (str "dev") = true ∧
    (∃ repo ∈ [grepoW], ∃ ref ∈ repo.refs,
      envContribG expAll (str "master") repo ref (str "dev")) ∧
    List.Sorted strLeP (envs_gitpython expAll (str "master") [grepoW]) ∧
    expAll (str "x") = true ∧
    (∃ repo ∈ [repoW], ∃ ref ∈ _dulwich_env_refs (getRefs repo),
      envContrib expAll (str "master") ref (str "x")) ∧
    List.Sorted strLeP (envs_dulwich expAll (str "master") [repoW]) :=
  claim_C8 expAll (str "master") [grepoW] [repoW] (str "dev") (str "x")
    (by decide) (by decide)

/-! ## Claim C7 -/

/-- C7: when a branch `b` and a tag `t` in the same repo both sanitize
to the environment name `short` (and are the only refs matching it),
tree resolution for `short` returns the tree of the branch tip's
commit: the scan runs over the sorted env refs, and every
`refs/heads/...` name sorts strictly before every `refs/tags/...`
name. -/
theorem claim_C7 (envsL : List Str) (exposed : Str → Bool) (repo : DRepo)
    (short b t sha ctree : Str) (tr : DObj)
    (hsb : pyReplace b '/' '_' = short)
    (_hst : pyReplace t '/' '_' = short)
    (hbmem : (str "refs/heads/" ++ b) ∈ getRefs repo)
    (_htmem : (str "refs/tags/" ++ t) ∈ getRefs repo)
    (hbend : pyEndsWith (str "refs/heads/" ++ b) (str "^\x7b\x7d") = false)
    (henv : envsL.contains short = true)
    (hexp : exposed short = true)
    (huniq : ∀ ref ∈ getRefs repo, refMatches exposed short ref = true →
      ref = str "refs/heads/" ++ b ∨ ref = str "refs/tags/" ++ t)
    (hsha : alookup (str "refs/heads/" ++ b) repo.refs = some sha)
    (hcommit : get_object repo sha = some (DObj.commit ctree))
    (htree : get_object repo ctree = some tr) :
    (_get_tree_dulwich envsL exposed repo short).1 = .ok (some tr) := by
  have pheads : refMatches exposed short (str "refs/heads/" ++ b) = true := by
    unfold refMatches
    rw [heads_ref_parse b]
    simp [hsb, hexp]
  have hmemfil := heads_ref_mem_filter hbmem hbend
  have hmemsort : (str "refs/heads/" ++ b) ∈
      sortStrs (_dulwich_env_refs (getRefs repo)) := by
    unfold sortStrs
    exact (List.mem_insertionSort strLeP).mpr hmemfil
  have hfindsome : ((sortStrs (_dulwich_env_refs (getRefs repo))).find?
      (refMatches exposed short)).isSome := by
    rw [List.find?_isSome]
    exact ⟨str "refs/heads/" ++ b, hmemsort, pheads⟩
  cases hfx : (sortStrs (_dulwich_env_refs (getRefs repo))).find?
      (refMatches exposed short) with
  | none => rw [hfx] at hfindsome; cases hfindsome
  | some x =>
    have hxmem : x ∈ sortStrs (_dulwich_env_refs (getRefs repo)) :=
      List.mem_of_find?_eq_some hfx
    have hxfil : x ∈ _dulwich_env_refs (getRefs repo) := by
      unfold sortStrs at hxmem
      exact (List.mem_insertionSort strLeP).mp hxmem
    have hxrefs : x ∈ getRefs repo := by
      rw [_dulwich_env_refs, List.mem_filter] at hxfil
      exact hxfil.1
    have hpx := List.find?_some hfx
    have hx := huniq x hxrefs hpx
    have hxheads : x = str "refs/heads/" ++ b := by
      rcases hx with h | h
      · exact h
      · exfalso
        have hmin := find_first_sorted (List.sorted_insertionSort strLeP _) hfx
          (str "refs/heads/" ++ b) hmemsort pheads
        rw [h] at hmin
        rw [show strLeP (str "refs/tags/" ++ t) (str "refs/heads/" ++ b) =
          (strLe (str "refs/tags/" ++ t) (str "refs/heads/" ++ b) = true) from rfl,
          strLe_tags_heads t b] at hmin
        cases hmin
    subst hxheads
    have hpay : refPayload repo (str "refs/heads/" ++ b) = .ok tr := by
      unfold refPayload
      rw [heads_ref_parse b]
      simp [hsha, hcommit, htree]
    unfold _get_tree_dulwich
    rw [if_pos henv, refScanLoop_eq_find, hfx]
    simp [hpay]

/-- C7 witness: in `repoW` the branch `x` and the tag `x` collide; the
resolved tree is the branch tip's tree (the one whose `foo.sls` holds
the branch contents). -/
theorem claim_C7_witness :
    (_get_tree_dulwich [str "x"] expAll repoW (str "x")).1 =
      .ok (some (DObj.tree [(str "foo.sls", str "b1")])) :=
  claim_C7 [str "x"] expAll repoW (str "x") (str "x") (str "x") (str "01") (str "a1")
    (DObj.tree [(str "foo.sls", str "b1")]) (by decide) (by decide) (by decide)
    (by decide) (by decide) (by decide) rfl (by decide) (by decide) (by decide) (by decide)

/-! ## Claim C5 -/

theorem walk_tree_none (repo : DRepo) (p : Str) :
    _dulwich_walk_tree repo none p = none := by
  unfold _dulwich_walk_tree
  by_cases hp : p = []
  · rw [if_pos hp]
  · rw [if_neg hp]
    generalize pySplitAll '/' p = segs
    induction segs with
    | nil => rfl
    | cons s ss ih => exact ih

theorem hex_ne_base {s : Str} (h : pyIsHex s = true) : s ≠ str "base" := by
  intro heq
  rw [heq] at h
  exact absurd h (by decide)

theorem resolveBlob_none_of_tree_none (pr : LoopParams) (rc : RepoConf)
    (h : (_get_tree_dulwich pr.envsL pr.exposed rc.repo pr.tgt).1 = .ok none) :
    resolveBlob pr rc = .ok none := by
  unfold resolveBlob
  by_cases hm : (rc.mountpoint.getD pr.gitfs_mountpoint ≠ [] &&
      !pyStartsWith pr.path (rc.mountpoint.getD pr.gitfs_mountpoint ++ str "/")) = true
  · rw [if_pos hm]
  · rw [if_neg hm]
    unfold repoLookup
    rw [h]
    simp [walk_tree_none]

/-- C5: for an exposed hexadecimal id shorter than 40 characters that
is not an environment name, the dulwich tree resolver scans the object
store for commits whose id extends it; unless exactly one commit
matches it returns absent — warning exactly when the prefix was
ambiguous — and a returned tree implies a unique matching commit.
Consequently `find_file` on an ambiguous prefix returns the empty
result. -/
theorem claim_C5 (envsL : List Str) (exposed : Str → Bool) (repo : DRepo) (short : Str)
    (hnotenv : envsL.contains short = false)
    (hexp : exposed short = true)
    (hhex : pyIsHex short = true)
    (hlen : short.length < 40) :
    ((shaMatches repo short).length ≠ 1 →
      _get_tree_dulwich envsL exposed repo short =
        (.ok none, decide ((shaMatches repo short).length > 1))) ∧
    (∀ tr, (_get_tree_dulwich envsL exposed repo short).1 = .ok (some tr) →
      ∃ sha c, shaMatches repo short = [(sha, DObj.commit c)] ∧
        get_object repo c = some tr) ∧
    (∀ (cfg : GitfsConfig) (rc : RepoConf) (fs : FS) (p : Str),
      cfg.exposed = exposed →
      envs_dulwich cfg.exposed cfg.gitfs_base [rc.repo] = envsL →
      rc.repo = repo →
      effectiveEnv cfg short = short →
      (shaMatches repo short).length > 1 →
      (find_file cfg [rc] fs p short).1 = .ok emptyFnd) := by
  have h40 : ¬ short.length = 40 := by omega
  have hbody : _get_tree_dulwich envsL exposed repo short =
      (if (shaMatches repo short).length > 1 then (.ok none, true)
       else match shaMatches repo short with
         | [(_, DObj.commit t)] =>
           (match get_object repo t with
            | some tr2 => (.ok (some tr2), false)
            | none => (.exc, false))
         | _ => (.ok none, false)) := by
    unfold _get_tree_dulwich
    rw [if_neg (by rw [hnotenv]; simp)]
    simp only [hexp, hhex, Bool.not_true, Bool.false_eq_true, if_false, if_neg h40]
  have hcommits : ∀ q ∈ shaMatches repo short, ∃ c, q.2 = DObj.commit c := by
    intro q hq
    rw [shaMatches, List.mem_filter] at hq
    have := hq.2
    rw [Bool.and_eq_true] at this
    cases hobj : q.2 with
    | commit c => exact ⟨c, rfl⟩
    | tagObj o => rw [hobj] at this; cases this.2
    | tree es => rw [hobj] at this; cases this.2
    | blob d => rw [hobj] at this; cases this.2
  refine ⟨?_, ?_, ?_⟩
  · intro hne
    rw [hbody]
    by_cases hgt : (shaMatches repo short).length > 1
    · rw [if_pos hgt, decide_eq_true hgt]
    · have hz : (shaMatches repo short).length = 0 := by omega
      rw [if_neg hgt, List.length_eq_zero.mp hz]
      rfl
  · intro tr htr
    rw [hbody] at htr
    by_cases hgt : (shaMatches repo short).length > 1
    · rw [if_pos hgt] at htr
      cases htr
    · rw [if_neg hgt] at htr
      have key : ∀ ms : List (Str × DObj), (∀ q ∈ ms, ∃ c, q.2 = DObj.commit c) →
          ¬ ms.length > 1 →
          ((match ms with
            | [(_, DObj.commit t)] =>
              (match get_object repo t with
               | some tr2 => (Raised.ok (some tr2), false)
               | none => (Raised.exc, false))
            | _ => ((Raised.ok none : Raised (Option DObj)), false)).1 = .ok (some tr)) →
          ∃ sha c, ms = [(sha, DObj.commit c)] ∧ get_object repo c = some tr := by
        intro ms hcm hlen1 hm
        cases ms with
        | nil =>
          have hm' : Raised.ok (none : Option DObj) = Raised.ok (some tr) := hm
          exact Option.noConfusion (Raised.ok.inj hm')
        | cons q rest =>
          cases rest with
          | cons q2 rest2 =>
            exfalso
            apply hlen1
            simp [List.length_cons]
          | nil =>
            obtain ⟨c, hc⟩ := hcm q (by simp)
            cases q with
            | mk sha0 obj =>
              simp only at hc
              subst hc
              have hm2 : (match get_object repo c with
                  | some tr2 => ((Raised.ok (some tr2) : Raised (Option DObj)), false)
                  | none => (Raised.exc, false)).1 = Raised.ok (some tr) := hm
              cases hg : get_object repo c with
              | some tr2 =>
                rw [hg] at hm2
                have hm' : Raised.ok (some tr2) = Raised.ok (some tr) := hm2
                have h2 : tr2 = tr := Option.some.inj (Raised.ok.inj hm')
                subst h2
                exact ⟨sha0, c, rfl, hg⟩
              | none =>
                rw [hg] at hm2
                exact Raised.noConfusion
                  (show (Raised.exc : Raised (Option DObj)) = Raised.ok (some tr) from hm2)
      exact key (shaMatches repo short) hcommits hgt htr
  · intro cfg rc fs p hexpeq henvseq hrepoeq htgteq hgt
    have htreenone :
        ((_get_tree_dulwich (findFileParams cfg [rc] p short).envsL
          (findFileParams cfg [rc] p short).exposed rc.repo
          (findFileParams cfg [rc] p short).tgt).1 = .ok none) := by
      show (_get_tree_dulwich (envs_dulwich cfg.exposed cfg.gitfs_base [rc.repo])
        cfg.exposed rc.repo (effectiveEnv cfg short)).1 = .ok none
      rw [henvseq, hexpeq, hrepoeq, htgteq, hbody, if_pos hgt]
    have hrb := resolveBlob_none_of_tree_none (findFileParams cfg [rc] p short) rc htreenone
    by_cases habs : isabs p = true
    · rw [find_file_abs cfg [rc] fs p short habs]
    · have hall : ∀ rc' ∈ [rc],
          resolveBlob (findFileParams cfg [rc] p short) rc' = .ok none := by
        intro rc' hrc'
        rw [List.mem_singleton] at hrc'
        subst hrc'
        exact hrb
      rw [find_file_rel cfg [rc] fs p short (by simpa using habs),
        findFileLoop_all_none _ _ _ hall]

/-- C5 witness: in `repoAmb` two commits share the prefix `dead`; the
resolver returns absent and flags the ambiguity warning. -/
theorem claim_C5_witness :
    _get_tree_dulwich [] expAll repoAmb (str "dead") =
      (.ok none, decide ((shaMatches repoAmb (str "dead")).length > 1)) :=
  (claim_C5 [] expAll repoAmb (str "dead") rfl rfl (by decide) (by decide)).1 (by decide)

/-! ## Mountpoint behaviour of the repo loop -/

theorem isdir_mem {fs : FS} {p : Str} (h : isdir fs p = true) : p ∈ fs.dirs :=
  List.elem_iff.mp h

theorem osJoin_ne_nil_left (a b : Str) (ha : a ≠ []) : osJoin a b ≠ [] := by
  unfold osJoin
  by_cases h1 : pyStartsWith b (str "/") = true
  · rw [if_pos h1]
    intro hb
    rw [hb] at h1
    exact absurd h1 (by decide)
  · rw [if_neg h1, if_neg ha]
    by_cases h3 : pyEndsWith a (str "/") = true
    · rw [if_pos h3]
      intro h
      exact ha (List.append_eq_nil.mp h).1
    · rw [if_neg h3]
      intro h
      exact ha (List.append_eq_nil.mp (List.append_eq_nil.mp h).1).1

theorem findFileParams_dest_ne_nil (cfg : GitfsConfig) (repos : List RepoConf)
    (path tgt_env : Str) : (findFileParams cfg repos path tgt_env).dest ≠ [] := by
  have hA : osJoin cfg.cachedir (str "gitfs/refs") ≠ [] :=
    (osJoin_base_facts cfg.cachedir).2.2.2.1
  exact osJoin_ne_nil_left _ path (osJoin_ne_nil_left _ _ hA)

theorem resolveBlob_skip (cfg : GitfsConfig) (rc : RepoConf) (p tgt m : Str)
    (repos : List RepoConf)
    (hm : rc.mountpoint.getD cfg.gitfs_mountpoint = m) (hmne : m ≠ [])
    (hpre : pyStartsWith p (m ++ str "/") = false) :
    resolveBlob (findFileParams cfg repos p tgt) rc = .ok none := by
  have hcond : (decide (m ≠ []) && !pyStartsWith p (m ++ str "/")) = true := by
    rw [hpre]
    simp [hmne]
  unfold resolveBlob
  simp only [show (findFileParams cfg repos p tgt).gitfs_mountpoint =
      cfg.gitfs_mountpoint from rfl,
    show (findFileParams cfg repos p tgt).path = p from rfl, hm, hcond, if_true]

theorem resolveBlob_strip (cfg : GitfsConfig) (rc : RepoConf) (p tgt m : Str)
    (repos : List RepoConf)
    (hm : rc.mountpoint.getD cfg.gitfs_mountpoint = m)
    (hpre : pyStartsWith p (m ++ str "/") = true) :
    resolveBlob (findFileParams cfg repos p tgt) rc =
      repoLookup (findFileParams cfg repos p tgt).envsL
        (findFileParams cfg repos p tgt).exposed
        (findFileParams cfg repos p tgt).tgt rc.repo
        (if rc.root.getD cfg.gitfs_root ≠ []
         then osJoin (rc.root.getD cfg.gitfs_root) (pyLstrip (p.drop m.length) '/')
         else pyLstrip (p.drop m.length) '/') := by
  have hcond : (decide (m ≠ []) && !pyStartsWith p (m ++ str "/")) = false := by
    rw [hpre]
    simp
  unfold resolveBlob
  simp only [show (findFileParams cfg repos p tgt).gitfs_mountpoint =
      cfg.gitfs_mountpoint from rfl,
    show (findFileParams cfg repos p tgt).path = p from rfl,
    show (findFileParams cfg repos p tgt).gitfs_root = cfg.gitfs_root from rfl,
    hm, hcond, Bool.false_eq_true, if_false]

theorem find_file_mountpoint_skip (cfg : GitfsConfig) (rc : RepoConf) (fs : FS)
    (p tgt m : Str)
    (hm : rc.mountpoint.getD cfg.gitfs_mountpoint = m) (hmne : m ≠ [])
    (hpre : pyStartsWith p (m ++ str "/") = false) :
    (find_file cfg [rc] fs p tgt).1 = .ok emptyFnd := by
  by_cases habs : isabs p = true
  · rw [find_file_abs cfg [rc] fs p tgt habs]
  · have hall : ∀ rc' ∈ [rc], resolveBlob (findFileParams cfg [rc] p tgt) rc' = .ok none := by
      intro rc' hrc'
      rw [List.mem_singleton] at hrc'
      rw [hrc']
      exact resolveBlob_skip cfg rc p tgt m [rc] hm hmne hpre
    rw [find_file_rel cfg [rc] fs p tgt (by simpa using habs),
      findFileLoop_all_none _ _ _ hall]

theorem find_file_mountpoint_serve (cfg : GitfsConfig) (rc : RepoConf) (fs : FS)
    (p tgt m sha data : Str)
    (hm : rc.mountpoint.getD cfg.gitfs_mountpoint = m)
    (habs : isabs p = false)
    (hpre : pyStartsWith p (m ++ str "/") = true)
    (hlk : repoLookup (findFileParams cfg [rc] p tgt).envsL
      (findFileParams cfg [rc] p tgt).exposed
      (findFileParams cfg [rc] p tgt).tgt rc.repo
      (if rc.root.getD cfg.gitfs_root ≠ []
       then osJoin (rc.root.getD cfg.gitfs_root) (pyLstrip (p.drop m.length) '/')
       else pyLstrip (p.drop m.length) '/') = .ok (some (sha, data))) :
    (find_file cfg [rc] fs p tgt).1 =
      .ok { rel := p, path := (findFileParams cfg [rc] p tgt).dest } := by
  have hres : resolveBlob (findFileParams cfg [rc] p tgt) rc = .ok (some (sha, data)) := by
    rw [resolveBlob_strip cfg rc p tgt m [rc] hm hpre]
    exact hlk
  rw [find_file_rel cfg [rc] fs p tgt habs]
  exact findFileLoop_serves _ _ rc [] sha data hres

/-! ## Claim C2 -/

/-- C2: mountpoint handling.  (i) A repo whose effective mountpoint `m`
is non-empty is skipped whenever the requested path does not start with
`m` followed by the separator.  (ii) When it does, the lookup inside
the repo uses the path with the first `|m|` characters dropped and the
leading separators stripped, with the repo's root (if any) prepended.
(iii)/(iv) Hence with mountpoint `srv/salt` (and empty root),
`find_file "foo.sls"` returns the empty result while
`find_file "srv/salt/foo.sls"` serves the blob looked up at
`foo.sls`. -/
theorem claim_C2 :
    (∀ (cfg : GitfsConfig) (rc : RepoConf) (fs : FS) (p tgt m : Str),
      rc.mountpoint.getD cfg.gitfs_mountpoint = m → m ≠ [] →
      pyStartsWith p (m ++ str "/") = false →
      (find_file cfg [rc] fs p tgt).1 = .ok emptyFnd) ∧
    (∀ (cfg : GitfsConfig) (rc : RepoConf) (fs : FS) (p tgt m sha data : Str),
      rc.mountpoint.getD cfg.gitfs_mountpoint = m →
      isabs p = false →
      pyStartsWith p (m ++ str "/") = true →
      repoLookup (findFileParams cfg [rc] p tgt).envsL
        (findFileParams cfg [rc] p tgt).exposed
        (findFileParams cfg [rc] p tgt).tgt rc.repo
        (if rc.root.getD cfg.gitfs_root ≠ []
         then osJoin (rc.root.getD cfg.gitfs_root) (pyLstrip (p.drop m.length) '/')
         else pyLstrip (p.drop m.length) '/') = .ok (some (sha, data)) →
      (find_file cfg [rc] fs p tgt).1 =
        .ok { rel := p, path := (findFileParams cfg [rc] p tgt).dest }) ∧
    (∀ (cfg : GitfsConfig) (rc : RepoConf) (fs : FS) (tgt : Str),
      rc.mountpoint = some (str "srv/salt") →
      (find_file cfg [rc] fs (str "foo.sls") tgt).1 = .ok emptyFnd) ∧
    (∀ (cfg : GitfsConfig) (rc : RepoConf) (fs : FS) (tgt sha data : Str),
      rc.mountpoint = some (str "srv/salt") →
      rc.root.getD cfg.gitfs_root = [] →
      repoLookup (findFileParams cfg [rc] (str "srv/salt/foo.sls") tgt).envsL
        (findFileParams cfg [rc] (str "srv/salt/foo.sls") tgt).exposed
        (findFileParams cfg [rc] (str "srv/salt/foo.sls") tgt).tgt rc.repo
        (str "foo.sls") = .ok (some (sha, data)) →
      (find_file cfg [rc] fs (str "srv/salt/foo.sls") tgt).1 =
        .ok { rel := str "srv/salt/foo.sls",
              path := (findFileParams cfg [rc] (str "srv/salt/foo.sls") tgt).dest }) := by
  refine ⟨?_, ?_, ?_, ?_⟩
  · intro cfg rc fs p tgt m hm hmne hpre
    exact find_file_mountpoint_skip cfg rc fs p tgt m hm hmne hpre
  · intro cfg rc fs p tgt m sha data hm habs hpre hlk
    exact find_file_mountpoint_serve cfg rc fs p tgt m sha data hm habs hpre hlk
  · intro cfg rc fs tgt hm
    exact find_file_mountpoint_skip cfg rc fs (str "foo.sls") tgt (str "srv/salt")
      (by rw [hm]; rfl) (by decide) (by decide)
  · intro cfg rc fs tgt sha data hm hroot hlk
    refine find_file_mountpoint_serve cfg rc fs (str "srv/salt/foo.sls") tgt
      (str "srv/salt") sha data (by rw [hm]; rfl) (by decide) (by decide) ?_
    rw [hroot]
    simpa using hlk

/-- C2 witness: the four parts at the concrete repo `rcMnt` (mountpoint
`srv/salt`, empty root, branch `x` with a `foo.sls` blob). -/
theorem claim_C2_witness :
    (find_file cfgW [rcMnt] fs0 (str "zzz/foo.sls") (str "x")).1 = .ok emptyFnd ∧
    (find_file cfgW [rcMnt] fs0 (str "srv/salt/foo.sls") (str "x")).1 =
      .ok { rel := str "srv/salt/foo.sls",
            path := (findFileParams cfgW [rcMnt] (str "srv/salt/foo.sls") (str "x")).dest } ∧
    (find_file cfgW [rcMnt] fs0 (str "foo.sls") (str "x")).1 = .ok emptyFnd :=
  ⟨claim_C2.1 cfgW rcMnt fs0 (str "zzz/foo.sls") (str "x") (str "srv/salt") rfl
      (by decide) (by decide),
   claim_C2.2.1 cfgW rcMnt fs0 (str "srv/salt/foo.sls") (str "x") (str "srv/salt")
      (str "b1") (str "branch contents") rfl (by decide) (by decide) (by decide),
   claim_C2.2.2.1 cfgW rcMnt fs0 (str "x") rfl⟩

/-! ## Claim C3 -/

/-- C3 counterexample: the original claim says that whenever no
configured repo yields a blob, `find_file` returns the empty result
`{rel: '', path: ''}`, never raising.  That is false on a
truncated store: in `repoDangling` the ref `refs/heads/x` names a
commit object missing from the store, the target environment `x` is in
`envs()` and exposed, so the scan of `_get_tree_dulwich` matches the
ref and `repo.get_object(refs[ref])` at gitfs.py:390 raises
`KeyError`; the call sits outside the `try` at line 1005, so the
exception escapes `find_file` to its caller instead of the empty
result being returned. -/
theorem claim_C3_counterexample :
    (find_file cfgW [rcDangling] fs0 (str "foo.sls") (str "x")).1 = Raised.exc ∧
    (find_file cfgW [rcDangling] fs0 (str "foo.sls") (str "x")).1 ≠ Raised.ok emptyFnd := by
  constructor
  · decide
  · decide

/-- C3 (amended): `find_file` returns the empty result
`{rel: '', path: ''}` immediately — state untouched and no
exception — for every absolute path; and for a relative path it
returns the same empty result, without raising, provided every
configured repo's resolution completes without an uncaught exception
and yields no blob.  The proviso is necessary: when a repo's tree
resolution hits a dangling ref or missing object, the
`KeyError`/`NameError` of gitfs.py:390-405/445 propagates out of
`find_file` instead. -/
theorem claim_C3 :
    (∀ (cfg : GitfsConfig) (repos : List RepoConf) (fs : FS) (path tgt_env : Str),
      isabs path = true → find_file cfg repos fs path tgt_env = (.ok emptyFnd, fs)) ∧
    (∀ (cfg : GitfsConfig) (repos : List RepoConf) (fs : FS) (path tgt_env : Str),
      (∀ rc ∈ repos, resolveBlob (findFileParams cfg repos path tgt_env) rc = .ok none) →
      (find_file cfg repos fs path tgt_env).1 = .ok emptyFnd) := by
  constructor
  · exact find_file_abs
  · intro cfg repos fs path tgt_env hall
    by_cases habs : isabs path = true
    · rw [find_file_abs cfg repos fs path tgt_env habs]
    · rw [find_file_rel cfg repos fs path tgt_env (by simpa using habs),
        findFileLoop_all_none _ _ _ hall]

/-- C3 witness: an absolute path misses with untouched state and no
exception; a relative path for which the only repo lacks the
environment yields the empty result without raising. -/
theorem claim_C3_witness :
    find_file cfgW [rcW] fs0 (str "/etc/passwd") (str "x") = (.ok emptyFnd, fs0) ∧
    (find_file cfgW [rcAmb] fs0 (str "foo.sls") (str "x")).1 = .ok emptyFnd :=
  ⟨claim_C3.1 cfgW [rcW] fs0 (str "/etc/passwd") (str "x") (by decide),
   claim_C3.2 cfgW [rcAmb] fs0 (str "foo.sls") (str "x") (by decide)⟩

/-! ## Claim C10 -/

/-- C10: a `find_file` call with a relative path creates the
destination directory and the hash directory (they are in the
directory set of the resulting state whatever the outcome), and an
empty result implies that the file map is unchanged — the directories
are created even on a miss, but nothing is written inside them. -/
theorem claim_C10 (cfg : GitfsConfig) (repos : List RepoConf) (fs : FS)
    (path tgt_env : Str) (hrel : isabs path = false) :
    dirname (findFileParams cfg repos path tgt_env).dest ∈
      (find_file cfg repos fs path tgt_env).2.dirs ∧
    dirname (findFileParams cfg repos path tgt_env).blobshadest ∈
      (find_file cfg repos fs path tgt_env).2.dirs ∧
    ((find_file cfg repos fs path tgt_env).1 = .ok emptyFnd →
      (find_file cfg repos fs path tgt_env).2.files = fs.files) := by
  rw [find_file_rel cfg repos fs path tgt_env hrel]
  have hdirs := findFileLoop_dirs (findFileParams cfg repos path tgt_env)
    (prepDirs fs (dirname (findFileParams cfg repos path tgt_env).dest)
      (dirname (findFileParams cfg repos path tgt_env).blobshadest)) repos
  refine ⟨?_, ?_, ?_⟩
  · rw [hdirs]
    exact isdir_mem (prepDirs_isdir_dest fs _ _)
  · rw [hdirs]
    exact isdir_mem (prepDirs_isdir_hash fs _ _)
  · intro hempty
    rw [findFileLoop_empty_state _ _ _ (findFileParams_dest_ne_nil cfg repos path tgt_env)
      hempty]
    exact prepDirs_files fs _ _

/-- C10 witness: a miss (no repo matches the environment `zzz`) still
creates both cache directories and writes no file. -/
theorem claim_C10_witness :
    dirname (findFileParams cfgW [rcW] (str "a/b.sls") (str "zzz")).dest ∈
      (find_file cfgW [rcW] fs0 (str "a/b.sls") (str "zzz")).2.dirs ∧
    dirname (findFileParams cfgW [rcW] (str "a/b.sls") (str "zzz")).blobshadest ∈
      (find_file cfgW [rcW] fs0 (str "a/b.sls") (str "zzz")).2.dirs ∧
    ((find_file cfgW [rcW] fs0 (str "a/b.sls") (str "zzz")).1 = .ok emptyFnd →
      (find_file cfgW [rcW] fs0 (str "a/b.sls") (str "zzz")).2.files = fs0.files) :=
  claim_C10 cfgW [rcW] fs0 (str "a/b.sls") (str "zzz") (by decide)

/-! ## Claim C6 -/

/-- C6: (fast path) whenever the blob-sha sidecar exists with content
equal to the resolved blob's id and the materialized file exists, the
serving iteration of the repo loop returns `{rel, path}` with the
filesystem state untouched — no file is written; (idempotence) two
successive `find_file` calls with unchanged repos return identical
results, and the second call leaves the state exactly as the first one
did (so it performs no writes).  The only assumption is that the
effective target environment is not an absolute path. -/
theorem claim_C6 (pr : LoopParams) (fs : FS) (rc : RepoConf) (rest : List RepoConf)
    (sha data : Str)
    (hres : resolveBlob pr rc = .ok (some (sha, data)))
    (hsha : isfile fs pr.blobshadest = true)
    (hdest : isfile fs pr.dest = true)
    (hread : readFile fs pr.blobshadest = sha)
    (cfg : GitfsConfig) (repos : List RepoConf) (fs2 : FS) (path tgt_env : Str)
    (he : pyStartsWith (effectiveEnv cfg tgt_env) (str "/") = false) :
    findFileLoop pr fs (rc :: rest) = (.ok { rel := pr.path, path := pr.dest }, fs) ∧
    find_file cfg repos (find_file cfg repos fs2 path tgt_env).2 path tgt_env =
      find_file cfg repos fs2 path tgt_env := by
  constructor
  · rw [findFileLoop_cons_some pr fs rc rest sha data hres,
      if_pos (by rw [hsha, hdest]; rfl), if_pos hread]
  · exact find_file_idem_general cfg repos fs2 path tgt_env he

/-- C6 witness: after one serving call on `repoW`, the resulting state
satisfies the fast-path precondition, the loop returns without
touching the state, and the repeated `find_file` call is the identity
on both the result and the state. -/
theorem claim_C6_witness :
    findFileLoop (findFileParams cfgW [rcW] (str "foo.sls") (str "x"))
        (find_file cfgW [rcW] fs0 (str "foo.sls") (str "x")).2 (rcW :: []) =
      (.ok { rel := (findFileParams cfgW [rcW] (str "foo.sls") (str "x")).path,
             path := (findFileParams cfgW [rcW] (str "foo.sls") (str "x")).dest },
       (find_file cfgW [rcW] fs0 (str "foo.sls") (str "x")).2) ∧
    find_file cfgW [rcW]
        (find_file cfgW [rcW] fs0 (str "foo.sls") (str "x")).2 (str "foo.sls") (str "x") =
      find_file cfgW [rcW] fs0 (str "foo.sls") (str "x") :=
  claim_C6 (findFileParams cfgW [rcW] (str "foo.sls") (str "x"))
    (find_file cfgW [rcW] fs0 (str "foo.sls") (str "x")).2 rcW [] (str "b1")
    (str "branch contents") (by decide) (by decide) (by decide) (by decide)
    cfgW [rcW] fs0 (str "foo.sls") (str "x") (by decide)

/-! ## Claim C4 -/

theorem foldl_erase_eq_filter :
    ∀ (hs : List Str) (l : List Str), l.Nodup →
      hs.foldl List.erase l = l.filter (fun e => !hs.contains e) := by
  intro hs
  induction hs with
  | nil =>
    intro l _
    simp
  | cons h hs ih =>
    intro l hl
    rw [List.foldl_cons, ih (l.erase h) (hl.erase h), hl.erase_eq_filter h,
      List.filter_filter]
    apply List.filter_congr
    intro x hx
    by_cases hxh : x = h
    · simp [hxh]
    · simp [hxh, List.contains_cons]

/-- C4: when the base-directory listing has no duplicate names (as an
`os.listdir` result always does), `purge_cache` removes exactly the
entries that are neither a currently-configured remote hash nor one of
the reserved names `hash`, `refs`, `envs.p`, `remote_map.txt`; every
other entry survives; and the returned boolean — the seed of
`update`'s `changed` flag — is true iff at least one entry was
removed. -/
theorem claim_C4 (entries hashes : List Str) (hnd : entries.Nodup) :
    purge_removals entries hashes =
      entries.filter (fun e => !hashes.contains e && !purgeReserved.contains e) ∧
    purge_after entries hashes =
      entries.filter (fun e => hashes.contains e || purgeReserved.contains e) ∧
    (purge_cache entries hashes = true ↔
      ∃ e ∈ entries, e ∉ hashes ∧ e ∉ purgeReserved) := by
  have hrem : purge_removals entries hashes =
      entries.filter (fun e => !hashes.contains e && !purgeReserved.contains e) := by
    unfold purge_removals
    rw [foldl_erase_eq_filter hashes entries hnd, List.filter_filter]
    apply List.filter_congr
    intro x hx
    exact Bool.and_comm _ _
  refine ⟨hrem, ?_, ?_⟩
  · unfold purge_after
    apply List.filter_congr
    intro x hx
    rw [hrem]
    by_cases h1 : hashes.contains x = true <;> by_cases h2 : purgeReserved.contains x = true <;>
      simp [h1, h2, List.elem_iff, List.mem_filter, hx]
  · unfold purge_cache
    rw [hrem]
    simp [List.isEmpty_iff, List.filter_eq_nil_iff, List.elem_iff]

/-- C4 witness: with listing `[aaa, hash, deadbeef]` and configured
hash `deadbeef`, exactly `aaa` is removed, `hash` and `deadbeef`
survive, and the function reports a removal. -/
theorem claim_C4_witness :
    purge_removals [str "aaa", str "hash", str "deadbeef"] [str "deadbeef"] =
      List.filter (fun e => !List.contains [str "deadbeef"] e &&
        !purgeReserved.contains e) [str "aaa", str "hash", str "deadbeef"] ∧
    purge_after [str "aaa", str "hash", str "deadbeef"] [str "deadbeef"] =
      List.filter (fun e => List.contains [str "deadbeef"] e ||
        purgeReserved.contains e) [str "aaa", str "hash", str "deadbeef"] ∧
    (purge_cache [str "aaa", str "hash", str "deadbeef"] [str "deadbeef"] = true ↔
      ∃ e ∈ [str "aaa", str "hash", str "deadbeef"],
        e ∉ [str "deadbeef"] ∧ e ∉ purgeReserved) :=
  claim_C4 [str "aaa", str "hash", str "deadbeef"] [str "deadbeef"] (by decide)

/-! ## Claim C9 -/

/-- C9: when the fire-file-server-events option is set, `update` emits
exactly one event, tagged `fileserver/gitfs/update`, whose payload is
exactly `{changed, backend: "gitfs"}`; and the `changed` field is true
iff the cache purge removed something or some remote's refs moved
during its (successful, non-empty) fetch. -/
theorem claim_C9 (opts : GitfsOptions) (purgeResult : Bool)
    (fetches : List (DRepo × FetchResult))
    (hfire : opts.fileserver_events = true) :
    update_events opts purgeResult fetches =
      [(str "fileserver/gitfs/update",
        { changed := update_changed purgeResult fetches, backend := str "gitfs" })] ∧
    (update_changed purgeResult fetches = true ↔
      purgeResult = true ∨ ∃ rf ∈ fetches, repoChanged rf.1 rf.2 = true) := by
  constructor
  · unfold update_events
    rw [if_pos hfire]
    rfl
  · unfold update_changed
    have main : ∀ (l : List (DRepo × FetchResult)) (b : Bool),
        (l.foldl (fun c rf => c || repoChanged rf.1 rf.2) b = true ↔
          b = true ∨ ∃ rf ∈ l, repoChanged rf.1 rf.2 = true) := by
      intro l
      induction l with
      | nil => intro b; simp
      | cons x xs ih =>
        intro b
        rw [List.foldl_cons, ih (b || repoChanged x.1 x.2)]
        constructor
        · rintro (hb | ⟨rf, hmem, hf⟩)
          · rcases Bool.or_eq_true_iff.mp hb with h | h
            · exact Or.inl h
            · exact Or.inr ⟨x, by simp, h⟩
          · exact Or.inr ⟨rf, by simp [hmem], hf⟩
        · rintro (hb | ⟨rf, hmem, hf⟩)
          · exact Or.inl (by rw [hb]; rfl)
          · rcases List.mem_cons.mp hmem with rfl | hmem'
            · exact Or.inl (by rw [hf]; simp)
            · exact Or.inr ⟨rf, hmem', hf⟩
    exact main fetches purgeResult

/-- C9 witness: with events enabled, a clean purge and one fetched repo
whose refs moved, the single emitted event carries `changed = true` and
backend `gitfs`. -/
theorem claim_C9_witness :
    update_events (GitfsOptions.mk true) false
        [(repoW, FetchResult.fetched [])] =
      [(str "fileserver/gitfs/update",
        { changed := update_changed false [(repoW, FetchResult.fetched [])],
          backend := str "gitfs" })] ∧
    (update_changed false [(repoW, FetchResult.fetched [])] = true ↔
      false = true ∨ ∃ rf ∈ [(repoW, FetchResult.fetched [])],
        repoChanged rf.1 rf.2 = true) :=
  claim_C9 (GitfsOptions.mk true) false [(repoW, FetchResult.fetched [])] rfl
